import Mathlib

/-!
Verification development for the DocuSign backend (placeholder detection,
HTML alignment, value injection).  Strings are modelled as `List Char`;
Python string slicing `s[a:b]` is `(s.drop a).take (b - a)`.

Source files embedded here: `backend/detector.py`, `backend/main.py`,
`backend/ai_processor.py`.
-/

namespace DocuSign

/-- Python's `\s` character class (ASCII range; the inputs of interest are
ASCII).  Used by the bracket pattern `\$?\[\s*[^\]\n]+\s*\]` and `str.strip`. -/
def isPySpace (c : Char) : Bool :=
  c = ' ' ∨ c = '\t' ∨ c = '\n' ∨ c = '\r' ∨ c = '\x0b' ∨ c = '\x0c'

/-- Python `str.strip()`: drop whitespace from both ends. -/
def stripPy (s : List Char) : List Char :=
  ((s.dropWhile isPySpace).reverse.dropWhile isPySpace).reverse

/-- Python slice `s[a:b]` (for `0 ≤ a ≤ b`). -/
def pySlice (s : List Char) (a b : Nat) : List Char :=
  (s.drop a).take (b - a)

/-- The two field types produced by `detector.py`. -/
inductive FieldType where
  | bracketed
  | signature_line
deriving DecidableEq, Repr

/-- The `type` string used in the id f-string `f"{p['type']}@L{p['line']}@{idx}"`. -/
def FieldType.str : FieldType → List Char
  | .bracketed => "bracketed".data
  | .signature_line => "signature_line".data

/-- A detected placeholder (the dict built by `detect_bracketed` /
`detect_signature_lines`, plus the keys attached later).  `value` is only
meaningful for `bracketed` fields, `label`/`tabs`/`spaces`/`underlined` only
for `signature_line` fields; `hint`, `hint_long`, `demo_value` are attached by
the upload path and `input` by the export payload.  The derived `context` and
`label_guess` strings (detector.py lines 26-52) are not modelled: no claim
refers to them. -/
structure Field where
  ftype : FieldType
  value : List Char := []
  label : List Char := []
  start : Nat := 0
  stop : Nat := 0
  line : Nat := 0
  tabs : Nat := 0
  spaces : Nat := 0
  underlined : Bool := false
  id : List Char := []
  hint : List Char := []
  hint_long : List Char := []
  demo_value : List Char := []
  input : Option (List Char) := none
deriving DecidableEq, Repr

/-! ### The bracket scanner: `re.finditer(r"\$?\[\s*[^\]\n]+\s*\]", full_text)`

The regex is embedded with Python's leftmost-match, greedy-with-backtracking
semantics.  `wsRun` is the maximal run `\s*` can consume, `nbRun` the maximal
run `[^\]\n]+` can consume; `tryC`/`tryB`/`tryA` backtrack each quantifier
from its maximum down, exactly as the regex engine does. -/

/-- Length of the maximal whitespace prefix (the most `\s*` can take). -/
def wsRun (l : List Char) : Nat := (l.takeWhile isPySpace).length

/-- Char class `[^\]\n]`. -/
def isNB (c : Char) : Bool := ¬ (c = ']' ∨ c = '\n')

/-- Length of the maximal `[^\]\n]` prefix. -/
def nbRun (l : List Char) : Nat := (l.takeWhile isNB).length

/-- Match trailing `\s*\]` against `l`, trying to let `\s*` consume `c` chars
first and backtracking down to `0`.  Returns the total length consumed. -/
def tryC (l : List Char) : Nat → Option Nat
  | 0 => if l.get? 0 = some ']' then some 1 else none
  | c + 1 => if l.get? (c + 1) = some ']' then some (c + 2) else tryC l c

/-- Match `[^\]\n]+\s*\]` against `l`, letting `[^\]\n]+` consume `b` chars
first and backtracking down to `1`. -/
def tryB (l : List Char) : Nat → Option Nat
  | 0 => none
  | b + 1 =>
    let rest := l.drop (b + 1)
    match tryC rest (wsRun rest) with
    | some m => some (b + 1 + m)
    | none => tryB l b

/-- Match `\s*[^\]\n]+\s*\]` against `l`, letting the first `\s*` consume `a`
chars and backtracking down to `0`. -/
def tryA (l : List Char) : Nat → Option Nat
  | 0 => tryB l (nbRun l)
  | a + 1 =>
    let rest := l.drop (a + 1)
    match tryB rest (nbRun rest) with
    | some m => some (a + 1 + m)
    | none => tryA l a

/-- Match the full pattern `\$?\[\s*[^\]\n]+\s*\]` at the head of `l`
(returns the length of the match).  `\$?` prefers consuming a `$`; if the
next char is not `[` the alternative without `$` also fails, because `\[`
cannot match `$`. -/
def matchAt (l : List Char) : Option Nat :=
  match l with
  | '$' :: '[' :: rest => (tryA rest (wsRun rest)).map (· + 2)
  | '[' :: rest => (tryA rest (wsRun rest)).map (· + 1)
  | _ => none

/-- `re.finditer` scan: at each position try `matchAt`; on a match emit its
span and resume right after it, otherwise advance one char.  `fuel` bounds
the recursion (every step consumes at least one char); callers pass
`l.length`, which suffices. -/
def bracketScan (fuel : Nat) (l : List Char) (pos : Nat) : List (Nat × Nat) :=
  match fuel with
  | 0 => []
  | fuel + 1 =>
    match matchAt l with
    | some n => (pos, pos + n) :: bracketScan fuel (l.drop n) (pos + n)
    | none =>
      match l with
      | [] => []
      | _ :: t => bracketScan fuel t (pos + 1)

/-- `detect_bracketed(full_text)` (detector.py lines 63-74): one field per
regex match, `value` = matched text (`match.group(0)`, i.e. the slice of
`full_text` at the match span), `line` = 1 + newlines before the start. -/
def detect_bracketed (full_text : List Char) : List Field :=
  (bracketScan full_text.length full_text 0).map fun se =>
    { ftype := .bracketed
      value := pySlice full_text se.1 se.2
      start := se.1
      stop := se.2
      line := (full_text.take se.1).count '\n' + 1 }

/-! ### Paragraphs, documents, flattening -/

/-- A python-docx paragraph: its text and the underline flag of each run. -/
structure Para where
  text : List Char := []
  runsUnderline : List Bool := []
deriving DecidableEq, Repr

/- The docx document tree: a container holds paragraphs and tables; a table
is a list of rows, a row a list of cells, and a cell is itself a container
(python-docx `_Cell` exposes `paragraphs` and `tables`).  The list layers are
inlined as mutual inductives so that structural recursion is available. -/
mutual
inductive Container where
  | mk (paras : List Para) (tables : Tables)
inductive Tables where
  | nil
  | cons (rows : Rows) (rest : Tables)
inductive Rows where
  | nil
  | cons (cells : Cells) (rest : Rows)
inductive Cells where
  | nil
  | cons (cell : Container) (rest : Cells)
end

/-- The paragraphs directly contained in a container. -/
def Container.paras : Container → List Para
  | .mk ps _ => ps

/-- The tables directly contained in a container. -/
def Container.tables : Container → Tables
  | .mk _ ts => ts

/-- `detect_placeholders` lines 9-13: `doc.paragraphs` followed by, for each
table, each row, each cell, that cell's own paragraphs (`cell.paragraphs` —
one level only, no recursion into nested tables). -/
def cellsParas : Cells → List Para
  | .nil => []
  | .cons c rest => c.paras ++ cellsParas rest

def rowsParas : Rows → List Para
  | .nil => []
  | .cons cs rest => cellsParas cs ++ rowsParas rest

def tablesParas : Tables → List Para
  | .nil => []
  | .cons rows rest => rowsParas rows ++ tablesParas rest

def allParagraphs (doc : Container) : List Para :=
  doc.paras ++ tablesParas doc.tables

/-- `full_text = "\n".join(para_texts)` (detector.py line 16). -/
def joinNl : List (List Char) → List Char
  | [] => []
  | [t] => t
  | t :: ts => t ++ '\n' :: joinNl ts

/-- `build_offsets(para_texts)` (detector.py lines 117-125): the starting
offset of each paragraph text inside the joined full text. -/
def build_offsets (para_texts : List (List Char)) : List Nat :=
  match para_texts with
  | [] => []
  | t :: rest => 0 :: (build_offsets rest).map (· + (t.length + 1))

/-! ### The signature-line scanner (detector.py lines 76-115) -/

/-- `text.rfind(':')` — the index of the last colon, if any. -/
def rfindColon : List Char → Option Nat
  | [] => none
  | c :: rest =>
    match rfindColon rest with
    | some i => some (i + 1)
    | none => if c = ':' then some 0 else none

/-- The loop body of `detect_signature_lines` for one paragraph, given its
offset in the full text.  Returns the field it contributes, if any. -/
def sigOfPara (off : Nat) (full_text : List Char) (para : Para) : Option Field :=
  let text := para.text
  if text = [] then none
  else match rfindColon text with
  | none => none
  | some colon_pos =>
    let after_colon := text.drop (colon_pos + 1)
    if after_colon = [] then none
    else if ¬ after_colon.all (fun c => c = ' ' ∨ c = '\t') then none
    else if ¬ after_colon.contains '\t' then none
    else
      let label0 := stripPy (text.take colon_pos)
      let label := if label0.contains '\n'
        then stripPy ((label0.splitOn '\n').getLastD [])
        else label0
      let padding_start := off + colon_pos + 1
      let padding_end := off + text.length
      some { ftype := .signature_line
             label := label
             start := padding_start
             stop := padding_end
             line := (full_text.take padding_start).count '\n' + 1
             tabs := after_colon.count '\t'
             spaces := after_colon.count ' '
             underlined := para.runsUnderline.any id }

/-- `detect_signature_lines(paragraphs, para_texts, full_text)`. -/
def detect_signature_lines (paras : List Para) (full_text : List Char) :
    List Field :=
  let para_texts := paras.map Para.text
  (paras.zip (build_offsets para_texts)).filterMap fun po =>
    sigOfPara po.2 full_text po.1

/-! ### The field resolver (detector.py lines 7-61)

Python's `list.sort` is a stable sort; a stable sort is uniquely determined
by its ordering, so it is embedded as a stable insertion sort. -/

/-- Insert keeping stability: an element goes before the first existing
element with a strictly larger key. -/
def insertBy (key : Field → Nat) (x : Field) : List Field → List Field
  | [] => [x]
  | y :: ys => if key x ≤ key y then x :: y :: ys else y :: insertBy key x ys

/-- Stable sort by a `Nat` key (Python `list.sort(key=...)`). -/
def sortByKey (key : Field → Nat) : List Field → List Field
  | [] => []
  | x :: xs => insertBy key x (sortByKey key xs)

/-- The id assignment of detector.py line 34:
`p["id"] = f"{p['type']}@L{p['line']}@{idx}"` with `idx` the position in the
start-sorted list. -/
def mkId (t : FieldType) (line idx : Nat) : List Char :=
  t.str ++ "@L".data ++ (Nat.repr line).data ++ "@".data ++ (Nat.repr idx).data

def assignIds (fields : List Field) : List Field :=
  fields.enum.map fun ip => { ip.2 with id := mkId ip.2.ftype ip.2.line ip.1 }

/-- `detect_placeholders` (detector.py lines 7-61), returning the
`placeholders` list.  The derived `context`/`label_guess` strings are not
modelled (no claim refers to them); everything else is as in the source. -/
def detect_placeholders (doc : Container) : List Field :=
  let paras := allParagraphs doc
  let full_text := joinNl (paras.map Para.text)
  let merged := detect_bracketed full_text ++ detect_signature_lines paras full_text
  assignIds (sortByKey Field.start merged)

/-- The full text a document flattens to (detector.py lines 15-16). -/
def fullTextOf (doc : Container) : List Char :=
  joinNl ((allParagraphs doc).map Para.text)

/-! ### The value injector: `fill_docx_placeholders` (main.py lines 147-186) -/

/-- Python substring containment `k in t`. -/
def containsSub (t k : List Char) : Bool :=
  match t with
  | [] => k.isEmpty
  | _ :: rest => k.isPrefixOf t || containsSub rest k

/-- Python `text.replace(k, v)` — replace every (leftmost, non-overlapping)
occurrence.  For an empty `k` Python interleaves `v` between all characters.
`fuel` bounds the recursion; callers pass `t.length + 1`. -/
def pyReplace (fuel : Nat) (t k v : List Char) : List Char :=
  match fuel with
  | 0 => t
  | fuel + 1 =>
    if k = [] then
      match t with
      | [] => v
      | c :: rest => v ++ c :: pyReplace fuel rest k v
    else if k.isPrefixOf t then v ++ pyReplace fuel (t.drop k.length) k v
    else match t with
      | [] => []
      | c :: rest => c :: pyReplace fuel rest k v

/-- Python `text.split(k)` for non-empty `k` (spec-side device used to state
what "replace every occurrence" means; `text.replace(k, v)` is
`v.join(text.split(k))`). -/
def pySplit (fuel : Nat) (t k : List Char) : List (List Char) :=
  match fuel with
  | 0 => [t]
  | fuel + 1 =>
    if k = [] then [t]
    else if k.isPrefixOf t then [] :: pySplit fuel (t.drop k.length) k
    else match t with
      | [] => [[]]
      | c :: rest =>
        match pySplit fuel rest k with
        | [] => [[c]]
        | p :: ps => (c :: p) :: ps

/-- The start index of the last occurrence of `k` in `t` (Python
`str.rfind`). -/
def lastOccIdx : List Char → List Char → Option Nat
  | [], k => if k.isPrefixOf [] then some 0 else none
  | c :: rest, k =>
    match lastOccIdx rest k with
    | some i => some (i + 1)
    | none => if k.isPrefixOf (c :: rest) then some 0 else none

/-- Python `t.rsplit(k, 1)`: split once at the last occurrence. -/
def rsplit1 (t k : List Char) : List (List Char) :=
  if k = [] then [t]
  else match lastOccIdx t k with
    | some i => [t.take i, t.drop (i + k.length)]
    | none => [t]

/-- Association-list lookup (Python `dict` access by key). -/
def alookup {α : Type} (m : List (List Char × α)) (k : List Char) : Option α :=
  match m with
  | [] => none
  | (k', v) :: rest => if k' = k then some v else alookup rest k

/-- Python `dict` assignment `m[k] = v`: update in place if the key exists
(keeping its insertion position), otherwise append. -/
def upsert {α : Type} (m : List (List Char × α)) (k : List Char) (v : α) :
    List (List Char × α) :=
  match m with
  | [] => [(k, v)]
  | (k', v') :: rest => if k' = k then (k', v) :: rest else (k', v') :: upsert rest k v

/-- One iteration of the map-building loop (main.py lines 158-165). -/
def buildMapsStep
    (maps : List (List Char × List Char) × List (List Char × List Char))
    (p : Field) :
    List (List Char × List Char) × List (List Char × List Char) :=
  let user_val := stripPy (p.input.getD [])
  if user_val = [] then maps
  else if p.ftype = .bracketed then (upsert maps.1 p.value user_val, maps.2)
  else (maps.1, upsert maps.2 (p.label ++ [':']) user_val)

/-- main.py lines 155-165: build `bracket_map` and `sig_map` from the
placeholder payload.  A field whose `input` is missing or whose stripped
input is empty contributes nothing. -/
def buildMaps (placeholders : List Field) :
    List (List Char × List Char) × List (List Char × List Char) :=
  placeholders.foldl buildMapsStep ([], [])

/-- One bracket-map entry applied to a paragraph text (main.py 169-171):
`if k in para.text: para.text = para.text.replace(k, v)`. -/
def bracketApply (k v t : List Char) : List Char :=
  if containsSub t k then pyReplace (t.length + 1) t k v else t

/-- One sig-map entry applied to a paragraph text (main.py 172-175):
`if k in para.text: parts = para.text.rsplit(k, 1); para.text =
(parts[0] + k + " " + v) if len(parts) == 2 else para.text`. -/
def sigApply (k v t : List Char) : List Char :=
  if containsSub t k then
    let parts := rsplit1 t k
    if parts.length = 2 then (parts.getD 0 []) ++ k ++ ' ' :: v else t
  else t

/-- The per-paragraph body of `_replace_text_in_run_container`
(main.py lines 168-175): all bracket replacements, then the signature
append-after-last-occurrence replacements. -/
def paraFill (bracket_map sig_map : List (List Char × List Char))
    (t : List Char) : List Char :=
  sig_map.foldl (fun t kv => sigApply kv.1 kv.2 t)
    (bracket_map.foldl (fun t kv => bracketApply kv.1 kv.2 t) t)

/- The recursive walk of `_replace_text_in_run_container`
(main.py lines 167-182): rewrite every paragraph of the container, then
recurse through tables → rows → cells. -/
mutual
def fillContainer (bm sm : List (List Char × List Char)) : Container → Container
  | .mk ps ts => .mk (ps.map fun p => { p with text := paraFill bm sm p.text }) (fillTables bm sm ts)
def fillTables (bm sm : List (List Char × List Char)) : Tables → Tables
  | .nil => .nil
  | .cons rows rest => .cons (fillRows bm sm rows) (fillTables bm sm rest)
def fillRows (bm sm : List (List Char × List Char)) : Rows → Rows
  | .nil => .nil
  | .cons cells rest => .cons (fillCells bm sm cells) (fillRows bm sm rest)
def fillCells (bm sm : List (List Char × List Char)) : Cells → Cells
  | .nil => .nil
  | .cons c rest => .cons (fillContainer bm sm c) (fillCells bm sm rest)
end

/-- `fill_docx_placeholders(src_docx, placeholders)` — the document-rewriting
part (loading and saving the file are I/O around it). -/
def fill_docx_placeholders (doc : Container) (placeholders : List Field) : Container :=
  let maps := buildMaps placeholders
  fillContainer maps.1 maps.2 doc

/- Every paragraph text of the tree, in the order the recursive walk visits
them (paragraphs of a container first, then its tables depth-first). -/
mutual
def deepTexts : Container → List (List Char)
  | .mk ps ts => ps.map Para.text ++ deepTextsTables ts
def deepTextsTables : Tables → List (List Char)
  | .nil => []
  | .cons rows rest => deepTextsRows rows ++ deepTextsTables rest
def deepTextsRows : Rows → List (List Char)
  | .nil => []
  | .cons cells rest => deepTextsCells cells ++ deepTextsRows rest
def deepTextsCells : Cells → List (List Char)
  | .nil => []
  | .cons c rest => deepTexts c ++ deepTextsCells rest
end

/-! ### The HTML aligner: `create_marked_html` (main.py lines 60-145)

The DOCX→HTML conversion (mammoth, lines 66-68) is an external collaborator;
the aligner is embedded as a function of the HTML string it produced. -/

/-- The inert marker span inserted for a field (main.py line 80). -/
def markerOf (f : Field) : List Char :=
  "<span class=\"field-marker\" data-field-id=\"".data ++ f.id
    ++ "\">__MARKER_".data ++ f.id ++ "__</span>".data

/-- Match the HTML-tag pattern `<[^>]+>` at the head of `l`; returns the
length consumed.  Deterministic: `[^>]+` runs to the first `>`. -/
def tagLen (l : List Char) : Option Nat :=
  match l with
  | '<' :: rest =>
    let k := (rest.takeWhile (· ≠ '>')).length
    if 1 ≤ k ∧ rest.get? k = some '>' then some (k + 2) else none
  | _ => none

/-- Length consumed by `(?:<[^>]+>|\s)+` (greedy, nothing follows it in the
signature pattern, so maximal munch: a tag if one starts here, else one
whitespace char, else stop).  `fuel` ≥ `l.length` suffices. -/
def sigPadLen (fuel : Nat) (l : List Char) : Nat :=
  match fuel with
  | 0 => 0
  | fuel + 1 =>
    match tagLen l with
    | some t => t + sigPadLen fuel (l.drop t)
    | none =>
      match l with
      | c :: rest => if isPySpace c then 1 + sigPadLen fuel rest else 0
      | [] => 0

/-- Match the signature pattern `(label:)((?:<[^>]+>|\s)+)` at the head of
`l`; returns the matched length. -/
def sigMatchAt (label l : List Char) : Option Nat :=
  if (label ++ [':']).isPrefixOf l then
    let pad := sigPadLen (l.drop (label.length + 1)).length (l.drop (label.length + 1))
    if 1 ≤ pad then some (label.length + 1 + pad) else none
  else none

/-- `re.finditer` scan for the signature pattern. -/
def sigScan (fuel : Nat) (label l : List Char) (pos : Nat) : List (Nat × Nat) :=
  match fuel with
  | 0 => []
  | fuel + 1 =>
    match sigMatchAt label l with
    | some n => (pos, pos + n) :: sigScan fuel label (l.drop n) (pos + n)
    | none =>
      match l with
      | [] => []
      | _ :: t => sigScan fuel label t (pos + 1)

/-- All matches of `(label:)((?:<[^>]+>|\s)+)` in `html`
(main.py line 129). -/
def sigMatches (label html : List Char) : List (Nat × Nat) :=
  sigScan html.length label html 0

/-- One unit of the bracket-field pattern built at main.py lines 87-104:
a literal character or a tolerated run of markup tags `(?:<[^>]+>)*`. -/
inductive BUnit where
  | lit (c : Char)
  | tags
deriving DecidableEq, Repr

/-- The pattern builder loop (main.py lines 88-102), with its `in_bracket`
state.  `[` and `$` and every non-whitespace character inside brackets are
followed by an optional tag run; `]` is preceded by one. -/
def buildPattern : List Char → Bool → List BUnit
  | [], _ => []
  | c :: rest, inb =>
    if c = '[' then .lit '[' :: .tags :: buildPattern rest true
    else if c = ']' then .tags :: .lit ']' :: buildPattern rest false
    else if c = '$' then .lit '$' :: .tags :: buildPattern rest inb
    else if inb ∧ ¬ (c = ' ' ∨ c = '\t' ∨ c = '\n') then
      .lit c :: .tags :: buildPattern rest inb
    else .lit c :: buildPattern rest inb

/-- Case-insensitive character match (`re.IGNORECASE`, ASCII). -/
def ciEq (c d : Char) : Bool := c.toLower = d.toLower

/-- The lengths a greedy `(?:<[^>]+>)*` may consume at the head of `l`, in
the order the regex engine tries them (as many complete tags as possible
first, backtracking down to zero).  `fuel` ≥ `l.length` suffices. -/
def tagsChain (fuel : Nat) (l : List Char) : List Nat :=
  match fuel with
  | 0 => [0]
  | fuel + 1 =>
    match tagLen l with
    | some t => ((tagsChain fuel (l.drop t)).map (· + t)) ++ [0]
    | none => [0]

/-- Backtracking matcher for a bracket-field pattern against the head of
`l`; returns the consumed length of the first (regex-preferred) match.
`fuel` ≥ number of units suffices. -/
def matchUnits (fuel : Nat) (us : List BUnit) (l : List Char) : Option Nat :=
  match fuel, us with
  | _, [] => some 0
  | 0, _ => none
  | fuel + 1, .lit c :: us' =>
    match l with
    | [] => none
    | x :: l' => if ciEq c x then (matchUnits fuel us' l').map (· + 1) else none
  | fuel + 1, .tags :: us' =>
    (tagsChain l.length l).findSome? fun n =>
      (matchUnits fuel us' (l.drop n)).map (· + n)

/-- `re.search`: the leftmost match of the bracket pattern in `l`. -/
def patSearch (fuel : Nat) (us : List BUnit) (l : List Char) (pos : Nat) :
    Option (Nat × Nat) :=
  match fuel with
  | 0 => none
  | fuel + 1 =>
    match matchUnits us.length us l with
    | some n => some (pos, pos + n)
    | none =>
      match l with
      | [] => none
      | _ :: t => patSearch fuel us t (pos + 1)

/-- Python `html.replace(value, marker, 1)` — first occurrence only. -/
def replaceFirst (t k v : List Char) : List Char :=
  match t with
  | [] => if k = [] then v else []
  | c :: rest =>
    if k.isPrefixOf (c :: rest) then v ++ (c :: rest).drop k.length
    else c :: replaceFirst rest k v

/-- The state threaded through the alignment pass: the evolving HTML and the
per-label occurrence counters (`label_counts`). -/
structure AlignState where
  html : List Char
  counts : List (List Char × Nat)
deriving Repr

/-- Processing of one placeholder (the body of the loop at main.py
lines 77-143). -/
def alignStep (st : AlignState) (f : Field) : AlignState :=
  match f.ftype with
  | .bracketed =>
    let pat := buildPattern f.value false
    match patSearch (st.html.length + 1) pat st.html 0 with
    | some se => { st with html := st.html.take se.1 ++ markerOf f ++ st.html.drop se.2 }
    | none =>
      if containsSub st.html f.value then
        { st with html := replaceFirst st.html f.value (markerOf f) }
      else st
  | .signature_line =>
    let counts0 := if (alookup st.counts f.label).isSome then st.counts
      else st.counts ++ [(f.label, 0)]
    let c := (alookup counts0 f.label).getD 0
    let ms := sigMatches f.label st.html
    if c < ms.length then
      let se := ms.getD c (0, 0)
      { html := st.html.take se.1
          ++ pySlice st.html se.1 (se.1 + f.label.length + 1)
          ++ ' ' :: markerOf f ++ st.html.drop se.2
        counts := upsert counts0 f.label (c + 1) }
    else { st with counts := counts0 }

/-- `create_marked_html` (main.py lines 60-145) as a function of the
HTML produced by the external converter and the placeholder list. -/
def create_marked_html (html : List Char) (placeholders : List Field) : List Char :=
  ((sortByKey Field.start placeholders).foldl alignStep { html := html, counts := [] }).html

/-! ### Hint generation and attachment (`ai_processor.py`, main.py 207-216) -/

/-- A JSON object in the model response: which of the `micro` / `long` /
`demo` keys are present, and their string values. -/
structure RawEntry where
  micro : Option (List Char) := none
  long : Option (List Char) := none
  demo : Option (List Char) := none
deriving DecidableEq, Repr

/-- `generate_field_guidance` (ai_processor.py lines 157-194) as a function
of the API key (None when the env var is missing) and of the JSON mapping
`data` the model call produced (`_call_model` returns `{}` on any failure).
Maps field ids to `(micro, long, demo)` triples: first by direct id lookup,
then, if that matched nothing, by 1-based numeric keys over the first 120
placeholders. -/
def guidanceEntry (data : List (List Char × RawEntry)) (p : Field)
    (key : List Char) :
    Option (List Char × (List Char × List Char × List Char)) :=
  match alookup data key with
  | some g =>
    if g.micro.isSome ∧ g.long.isSome then
      some (p.id, (stripPy (g.micro.getD []), stripPy (g.long.getD []),
                   stripPy (g.demo.getD [])))
    else none
  | none => none

def generate_field_guidance (api_key : Option (List Char))
    (data : List (List Char × RawEntry)) (placeholders : List Field) :
    List (List Char × (List Char × List Char × List Char)) :=
  if api_key.isNone then []
  else
    let phase1 := placeholders.filterMap fun p => guidanceEntry data p p.id
    if phase1 ≠ [] then phase1
    else (placeholders.take 120).enum.filterMap fun ip =>
      guidanceEntry data ip.2 (Nat.repr (ip.1 + 1)).data

/-- The attachment loop of `upload_document` (main.py lines 210-214). -/
def attachGuidance
    (guidance : List (List Char × (List Char × List Char × List Char)))
    (ps : List Field) : List Field :=
  ps.map fun p =>
    let fg := alookup guidance p.id
    { p with hint := (fg.map fun g => g.1).getD []
             hint_long := (fg.map fun g => g.2.1).getD []
             demo_value := (fg.map fun g => g.2.2).getD [] }

/-! ### Auxiliary definitions used only to state and prove properties -/

/-- The output positions at which `pyReplace` wrote a copy of `v`
(mirrors the recursion of `pyReplace` for non-empty `k`). -/
def replaceSites (fuel : Nat) (t k v : List Char) : List Nat :=
  match fuel with
  | 0 => []
  | fuel + 1 =>
    if k = [] then []
    else if k.isPrefixOf t then
      0 :: (replaceSites fuel (t.drop k.length) k v).map (· + v.length)
    else match t with
      | [] => []
      | _ :: rest => (replaceSites fuel rest k v).map (· + 1)

/-- The segment of a string after its last `'@'` (ids end in `"@{idx}"`). -/
def lastSeg (s : List Char) : List Char :=
  (s.reverse.takeWhile (· ≠ '@')).reverse

/-- Numeric value of a decimal digit character. -/
def digitVal (c : Char) : Nat := c.toNat - 48

/-- Value of a decimal digit string (used to invert `Nat.repr`). -/
def listVal (s : List Char) : Nat := s.foldl (fun a c => 10 * a + digitVal c) 0

/-- The signature-line trigger condition on one paragraph text, as the spec
words it: there is a last colon, and the text after it is non-empty, all
spaces/tabs, with at least one tab. -/
def sigTrigger (t : List Char) : Bool :=
  match rfindColon t with
  | none => false
  | some cp =>
    let after := t.drop (cp + 1)
    ¬ after.isEmpty ∧ after.all (fun c => c = ' ' ∨ c = '\t') ∧ after.contains '\t'

/-! ## Lemmas -/

section Lemmas

lemma all_take_of_le_takeWhile {p : Char → Bool} :
    ∀ (l : List Char) (k : Nat), k ≤ (l.takeWhile p).length →
      ∀ c ∈ l.take k, p c := by
  intro l
  induction l with
  | nil => simp
  | cons x xs ih =>
    intro k hk c hc
    cases k with
    | zero => simp at hc
    | succ k =>
      by_cases hp : p x
      · rw [List.takeWhile_cons_of_pos hp] at hk
        simp only [List.length_cons, Nat.succ_le_succ_iff] at hk
        rw [List.take_succ_cons] at hc
        rcases List.mem_cons.mp hc with rfl | hmem
        · exact hp
        · exact ih k hk c hmem
      · rw [List.takeWhile_cons_of_neg hp] at hk
        simp at hk

lemma tryC_some : ∀ (l : List Char) (c m : Nat), tryC l c = some m →
    ∃ c', c' ≤ c ∧ m = c' + 1 ∧ l.get? c' = some ']' := by
  intro l c
  induction c with
  | zero =>
    intro m h
    simp only [tryC] at h
    split at h
    · exact ⟨0, Nat.le_refl 0, by injection h; omega, by assumption⟩
    · exact absurd h (by simp)
  | succ c ih =>
    intro m h
    simp only [tryC] at h
    split at h
    · exact ⟨c + 1, Nat.le_refl _, by injection h; omega, by assumption⟩
    · obtain ⟨c', h1, h2, h3⟩ := ih m h
      exact ⟨c', Nat.le_succ_of_le h1, h2, h3⟩

lemma tryB_some : ∀ (l : List Char) (b m : Nat), tryB l b = some m →
    ∃ b' c', 1 ≤ b' ∧ b' ≤ b ∧ c' ≤ wsRun (l.drop b') ∧
      (l.drop b').get? c' = some ']' ∧ m = b' + (c' + 1) := by
  intro l b
  induction b with
  | zero => intro m h; simp [tryB] at h
  | succ b ih =>
    intro m h
    simp only [tryB] at h
    rcases hC : tryC (l.drop (b + 1)) (wsRun (l.drop (b + 1))) with _ | mc
    · rw [hC] at h
      obtain ⟨b', c', h1, h2, h3, h4, h5⟩ := ih m h
      exact ⟨b', c', h1, Nat.le_succ_of_le h2, h3, h4, h5⟩
    · rw [hC] at h
      obtain ⟨c', hc1, hc2, hc3⟩ := tryC_some _ _ _ hC
      exact ⟨b + 1, c', by omega, Nat.le_refl _, hc1, hc3, by injection h; omega⟩

lemma tryA_some : ∀ (l : List Char) (a m : Nat), tryA l a = some m →
    ∃ a', a' ≤ a ∧ ∃ mb,
      tryB (l.drop a') (nbRun (l.drop a')) = some mb ∧ m = a' + mb := by
  intro l a
  induction a with
  | zero =>
    intro m h
    simp only [tryA] at h
    exact ⟨0, Nat.le_refl 0, m, by simpa using h, by omega⟩
  | succ a ih =>
    intro m h
    simp only [tryA] at h
    rcases hB : tryB (l.drop (a + 1)) (nbRun (l.drop (a + 1))) with _ | mb
    · rw [hB] at h
      obtain ⟨a', h1, h2⟩ := ih m h
      exact ⟨a', Nat.le_succ_of_le h1, h2⟩
    · rw [hB] at h
      exact ⟨a + 1, Nat.le_refl _, mb, hB, by injection h; omega⟩

/-- Soundness of the tail `\s*[^\]\n]+\s*\]` of the bracket pattern. -/
lemma tryA_decomp (rest : List Char) (m : Nat)
    (h : tryA rest (wsRun rest) = some m) :
    ∃ w1 core w2, rest.take m = w1 ++ core ++ w2 ++ [']'] ∧
      (∀ c ∈ w1, isPySpace c) ∧ core ≠ [] ∧ (∀ c ∈ core, isNB c) ∧
      (∀ c ∈ w2, isPySpace c) ∧ 1 ≤ m ∧ m ≤ rest.length := by
  obtain ⟨a', ha, mb, hB, rfl⟩ := tryA_some rest _ m h
  obtain ⟨b', c', hb1, hb2, hc, hget, rfl⟩ := tryB_some _ _ _ hB
  have hlen : c' < ((rest.drop a').drop b').length := by
    have := List.get?_eq_some.mp hget
    exact this.1
  rw [List.drop_drop] at hlen hget
  have hlen' : a' + b' + c' < rest.length := by
    have h1 : (rest.drop (a' + b')).length = rest.length - (a' + b') :=
      List.length_drop _ _
    omega
  have hterm : ((rest.drop (a' + b')).take (c' + 1)) =
      (rest.drop (a' + b')).take c' ++ [']'] := by
    rw [List.take_succ]
    rw [← List.get?_eq_getElem?, hget]
    rfl
  refine ⟨rest.take a', (rest.drop a').take b', (rest.drop (a' + b')).take c',
    ?_, ?_, ?_, ?_, ?_, by omega, by omega⟩
  · rw [List.take_add, List.take_add, List.drop_drop, hterm]
    simp
  · exact all_take_of_le_takeWhile rest a' ha
  · intro hnil
    rcases List.take_eq_nil_iff.mp hnil with h0 | h0
    · omega
    · have hz : (rest.drop a').length = 0 := by rw [h0]; rfl
      rw [List.length_drop] at hz
      omega
  · exact all_take_of_le_takeWhile (rest.drop a') b' hb2
  · exact all_take_of_le_takeWhile (rest.drop (a' + b')) c'
      (by rwa [List.drop_drop] at hc)

/-- Soundness of `matchAt`: a match is `$? [ ws core ws ]`. -/
lemma matchAt_decomp : ∀ (l : List Char) (n : Nat), matchAt l = some n →
    ∃ (d w1 core w2 : List Char),
      l.take n = d ++ '[' :: (w1 ++ core ++ w2 ++ [']']) ∧
      (d = [] ∨ d = ['$']) ∧
      (∀ c ∈ w1, isPySpace c) ∧ core ≠ [] ∧ (∀ c ∈ core, isNB c) ∧
      (∀ c ∈ w2, isPySpace c) ∧ 1 ≤ n ∧ n ≤ l.length := by
  intro l n h
  unfold matchAt at h
  split at h
  · rename_i rest
    rcases hA : tryA rest (wsRun rest) with _ | m
    · rw [hA] at h; exact absurd h (by simp)
    · rw [hA] at h
      injection h with h
      subst h
      obtain ⟨w1, core, w2, hdec, hw1, hcore, hnb, hw2, hm1, hm2⟩ :=
        tryA_decomp rest m hA
      refine ⟨['$'], w1, core, w2, ?_, Or.inr rfl, hw1, hcore, hnb, hw2,
        ?_, ?_⟩
      · rw [List.take_succ_cons, List.take_succ_cons, hdec]
        rfl
      · show 1 ≤ m + 2
        omega
      · show m + 2 ≤ ('$' :: '[' :: rest).length
        simp only [List.length_cons]
        omega
  · rename_i rest
    rcases hA : tryA rest (wsRun rest) with _ | m
    · rw [hA] at h; exact absurd h (by simp)
    · rw [hA] at h
      injection h with h
      subst h
      obtain ⟨w1, core, w2, hdec, hw1, hcore, hnb, hw2, hm1, hm2⟩ :=
        tryA_decomp rest m hA
      refine ⟨[], w1, core, w2, ?_, Or.inl rfl, hw1, hcore, hnb, hw2,
        ?_, ?_⟩
      · rw [List.take_succ_cons, hdec]
        rfl
      · show 1 ≤ m + 1
        omega
      · show m + 1 ≤ ('[' :: rest).length
        simp only [List.length_cons]
        omega
  · exact absurd h (by simp)

lemma matchAt_pos {l : List Char} {n : Nat} (h : matchAt l = some n) : 1 ≤ n :=
  (matchAt_decomp l n h).choose_spec.choose_spec.choose_spec.choose_spec.2.2.2.2.2.2.1

lemma matchAt_le {l : List Char} {n : Nat} (h : matchAt l = some n) :
    n ≤ l.length :=
  (matchAt_decomp l n h).choose_spec.choose_spec.choose_spec.choose_spec.2.2.2.2.2.2.2

lemma bracketScan_zero (l : List Char) (pos : Nat) :
    bracketScan 0 l pos = [] := rfl

lemma bracketScan_succ (fuel : Nat) (l : List Char) (pos : Nat) :
    bracketScan (fuel + 1) l pos =
      match matchAt l with
      | some n => (pos, pos + n) :: bracketScan fuel (l.drop n) (pos + n)
      | none =>
        match l with
        | [] => []
        | _ :: t => bracketScan fuel t (pos + 1) := rfl

lemma bracketScan_mem : ∀ (fuel : Nat) (l : List Char) (pos : Nat)
    (se : Nat × Nat), se ∈ bracketScan fuel l pos →
    pos ≤ se.1 ∧ ∃ n, matchAt (l.drop (se.1 - pos)) = some n ∧
      se.2 = se.1 + n := by
  intro fuel
  induction fuel with
  | zero => simp [bracketScan_zero]
  | succ fuel ih =>
    intro l pos se hmem
    rw [bracketScan_succ] at hmem
    rcases hM : matchAt l with _ | n <;> rw [hM] at hmem
    · rcases l with _ | ⟨c, t⟩
      · simp at hmem
      · obtain ⟨h1, n', h2, h3⟩ := ih t (pos + 1) se hmem
        refine ⟨by omega, n', ?_, h3⟩
        have e : se.1 - pos = (se.1 - (pos + 1)) + 1 := by omega
        rw [e, List.drop_succ_cons]
        exact h2
    · rcases List.mem_cons.mp hmem with rfl | hmem
      · exact ⟨Nat.le_refl _, n, by simpa using hM, rfl⟩
      · obtain ⟨h1, n', h2, h3⟩ := ih (l.drop n) (pos + n) se hmem
        refine ⟨by omega, n', ?_, h3⟩
        rw [List.drop_drop] at h2
        have e : n + (se.1 - (pos + n)) = se.1 - pos := by omega
        rwa [e] at h2

lemma bracketScan_pairwise : ∀ (fuel : Nat) (l : List Char) (pos : Nat),
    (bracketScan fuel l pos).Pairwise (fun a b => a.2 ≤ b.1) := by
  intro fuel
  induction fuel with
  | zero => simp [bracketScan_zero]
  | succ fuel ih =>
    intro l pos
    rw [bracketScan_succ]
    rcases hM : matchAt l with _ | n
    · rcases l with _ | ⟨c, t⟩
      · simp
      · exact ih t (pos + 1)
    · refine List.Pairwise.cons ?_ (ih (l.drop n) (pos + n))
      intro b hb
      exact (bracketScan_mem fuel (l.drop n) (pos + n) b hb).1

/-- Membership in `detect_bracketed`, reduced to the scanner. -/
lemma mem_detect_bracketed {full : List Char} {f : Field}
    (h : f ∈ detect_bracketed full) :
    f.ftype = .bracketed ∧ f.label = [] ∧
    ∃ n, matchAt (full.drop f.start) = some n ∧ f.stop = f.start + n ∧
      f.value = pySlice full f.start f.stop := by
  unfold detect_bracketed at h
  obtain ⟨se, hse, rfl⟩ := List.mem_map.mp h
  obtain ⟨h0, n, hm, he⟩ := bracketScan_mem full.length full 0 se hse
  simp only [Nat.sub_zero] at hm
  exact ⟨rfl, rfl, n, hm, he, rfl⟩

end Lemmas

/-! ## Claims -/

/-- C3 (counterexample): the claim states that a bracket match never contains
a newline.  But the `\s*` parts of `\$?\[\s*[^\]\n]+\s*\]` do match newlines:
on the full text `"[\nA]"` the scanner produces the single match `"[\nA]"`,
which contains `'\n'` and crosses a newline. -/
theorem claim_C3_counterexample :
    ∃ f ∈ detect_bracketed "[\nA]".data, '\n' ∈ f.value := by decide

/-- C3 (amended): every match produced by the bracket scanner has the form:
optional `'$'`, then `'['`, then zero or more whitespace characters, then one
or more characters that are neither `']'` nor newline, then zero or more
whitespace characters, then `']'`; the whitespace runs may contain newlines
(so a match can cross a newline); matches are pairwise non-overlapping. -/
theorem claim_C3_amended (full_text : List Char) :
    (∀ f ∈ detect_bracketed full_text,
      ∃ d w1 core w2, f.value = d ++ '[' :: (w1 ++ core ++ w2 ++ [']']) ∧
        (d = [] ∨ d = ['$']) ∧ (∀ c ∈ w1, isPySpace c) ∧
        core ≠ [] ∧ (∀ c ∈ core, c ≠ ']' ∧ c ≠ '\n') ∧
        (∀ c ∈ w2, isPySpace c)) ∧
    (detect_bracketed full_text).Pairwise (fun a b => a.stop ≤ b.start) := by
  constructor
  · intro f hf
    obtain ⟨-, -, n, hm, he, hv⟩ := mem_detect_bracketed hf
    obtain ⟨d, w1, core, w2, hdec, hd, hw1, hcore, hnb, hw2, -, -⟩ :=
      matchAt_decomp _ n hm
    refine ⟨d, w1, core, w2, ?_, hd, hw1, hcore, ?_, hw2⟩
    · rw [hv, pySlice, he]
      simpa using hdec
    · intro c hc
      have := hnb c hc
      simp only [isNB, decide_not] at this
      constructor <;> intro hne <;> simp [hne] at this
  · unfold detect_bracketed
    refine List.Pairwise.map _ ?_ (bracketScan_pairwise full_text.length full_text 0)
    intro a b hab
    simpa using hab

/-- C3 (witness for the amended claim): instantiated on the full text
`"a [x] b"` and its detected field `"[x]"`. -/
theorem claim_C3_amended_witness :
    ∃ d w1 core w2,
      ({ ftype := .bracketed, value := "[x]".data, start := 2, stop := 5,
         line := 1 } : Field).value = d ++ '[' :: (w1 ++ core ++ w2 ++ [']']) ∧
        (d = [] ∨ d = ['$']) ∧ (∀ c ∈ w1, isPySpace c) ∧
        core ≠ [] ∧ (∀ c ∈ core, c ≠ ']' ∧ c ≠ '\n') ∧
        (∀ c ∈ w2, isPySpace c) :=
  (claim_C3_amended "a [x] b".data).1 _ (by decide)

/-! ## Offsets, sorting, ids: supporting lemmas -/

section Lemmas2

lemma build_offsets_length : ∀ (texts : List (List Char)),
    (build_offsets texts).length = texts.length := by
  intro texts
  induction texts with
  | nil => rfl
  | cons t ts ih => simp [build_offsets, ih]

lemma build_offsets_cons (t : List Char) (rest : List (List Char)) :
    build_offsets (t :: rest) = 0 :: (build_offsets rest).map (· + (t.length + 1)) :=
  rfl

lemma joinNl_single (t : List Char) : joinNl [t] = t := rfl

lemma joinNl_cons_cons (t t2 : List Char) (ts : List (List Char)) :
    joinNl (t :: t2 :: ts) = t ++ '\n' :: joinNl (t2 :: ts) := rfl

/-- The paragraph at index `i` sits in the joined full text exactly at the
offset `build_offsets` computes for it. -/
lemma joinNl_decomp : ∀ (texts : List (List Char)) (i : Nat), i < texts.length →
    ∃ pre suf, joinNl texts = pre ++ texts.getD i [] ++ suf ∧
      pre.length = (build_offsets texts).getD i 0 := by
  intro texts
  induction texts with
  | nil => simp
  | cons t ts ih =>
    intro i hi
    cases i with
    | zero =>
      cases ts with
      | nil => exact ⟨[], [], by simp [joinNl_single], by simp [build_offsets]⟩
      | cons t2 ts2 =>
        exact ⟨[], '\n' :: joinNl (t2 :: ts2), by simp [joinNl_cons_cons],
          by simp [build_offsets]⟩
    | succ i =>
      have hi' : i < ts.length := by simpa using hi
      obtain ⟨pre, suf, hj, hl⟩ := ih i hi'
      cases ts with
      | nil => simp at hi'
      | cons t2 ts2 =>
        refine ⟨t ++ '\n' :: pre, suf, ?_, ?_⟩
        · rw [joinNl_cons_cons, hj]
          simp
        · have hlen2 : i < (build_offsets (t2 :: ts2)).length := by
            rw [build_offsets_length]; simpa using hi'
          have hrhs : (build_offsets (t :: t2 :: ts2)).getD (i + 1) 0 =
              (build_offsets (t2 :: ts2)).getD i 0 + (t.length + 1) := by
            rw [build_offsets_cons, List.getD_cons_succ,
              List.getD_eq_getElem?_getD, List.getD_eq_getElem?_getD,
              List.getElem?_map, List.getElem?_eq_getElem hlen2]
            rfl
          rw [hrhs, ← hl]
          simp only [List.length_append, List.length_cons]
          omega

/-- Dropping to a position inside paragraph `i` lands on the corresponding
suffix of that paragraph's text. -/
lemma joinNl_drop (texts : List (List Char)) (i : Nat) (hi : i < texts.length)
    (k : Nat) (hk : k ≤ (texts.getD i []).length) :
    ∃ suf, (joinNl texts).drop ((build_offsets texts).getD i 0 + k) =
      (texts.getD i []).drop k ++ suf ∧
      (build_offsets texts).getD i 0 + (texts.getD i []).length ≤
        (joinNl texts).length := by
  obtain ⟨pre, suf, hj, hl⟩ := joinNl_decomp texts i hi
  refine ⟨suf, ?_, ?_⟩
  · rw [hj, ← hl]
    have h1 : pre ++ texts.getD i [] ++ suf = pre ++ (texts.getD i [] ++ suf) := by
      simp
    rw [h1, ← List.drop_drop, List.drop_left, List.drop_append_eq_append_drop,
      Nat.sub_eq_zero_of_le hk, List.drop_zero]
  · rw [hj, ← hl]
    simp only [List.length_append]
    omega

lemma insertBy_perm (key : Field → Nat) (x : Field) :
    ∀ (l : List Field), (insertBy key x l).Perm (x :: l) := by
  intro l
  induction l with
  | nil => simp [insertBy]
  | cons y ys ih =>
    rw [insertBy]
    split
    · exact List.Perm.refl _
    · exact (ih.cons y).trans (List.Perm.swap x y ys)

lemma sortByKey_perm (key : Field → Nat) :
    ∀ (l : List Field), (sortByKey key l).Perm l := by
  intro l
  induction l with
  | nil => simp [sortByKey]
  | cons x xs ih =>
    rw [sortByKey]
    exact (insertBy_perm key x (sortByKey key xs)).trans (ih.cons x)

/-- Fields coming out of `detect_placeholders` are the merged scanner fields
with only the `id` replaced. -/
lemma mem_assignIds {l : List Field} {f : Field} (h : f ∈ assignIds l) :
    ∃ g ∈ l, ∃ i, f = { g with id := mkId g.ftype g.line i } := by
  unfold assignIds at h
  obtain ⟨ip, hip, rfl⟩ := List.mem_map.mp h
  obtain ⟨hlt, hx⟩ := List.mem_enum hip
  exact ⟨ip.2, by rw [hx]; exact List.getElem_mem hlt, ip.1, rfl⟩

lemma mem_detect_placeholders {doc : Container} {f : Field}
    (h : f ∈ detect_placeholders doc) :
    ∃ g, (g ∈ detect_bracketed (fullTextOf doc) ∨
          g ∈ detect_signature_lines (allParagraphs doc) (fullTextOf doc)) ∧
      ∃ i, f = { g with id := mkId g.ftype g.line i } := by
  unfold detect_placeholders at h
  obtain ⟨g, hg, i, rfl⟩ := mem_assignIds h
  have hg2 := (sortByKey_perm Field.start _).mem_iff.mp hg
  exact ⟨g, by simpa [fullTextOf] using List.mem_append.mp hg2, i, rfl⟩

lemma rfindColon_eq_none : ∀ (t : List Char), ':' ∉ t → rfindColon t = none := by
  intro t
  induction t with
  | nil => intro _; rfl
  | cons c rest ih =>
    intro hmem
    have h1 : ¬ c = ':' := fun hc => hmem (by simp [hc])
    have h2 : ':' ∉ rest := fun hm => hmem (List.mem_cons_of_mem _ hm)
    rw [rfindColon, ih h2]
    have h1' : ¬ (c = ':') := h1
    simp [h1']

lemma not_mem_of_rfindColon_none : ∀ (t : List Char), rfindColon t = none →
    ':' ∉ t := by
  intro t
  induction t with
  | nil => intro _; simp
  | cons c rest ih =>
    intro h
    rw [rfindColon] at h
    rcases hr : rfindColon rest with _ | j <;> rw [hr] at h
    · by_cases hc : c = ':'
      · rw [if_pos hc] at h
        exact absurd h (by simp)
      · intro hmem
        rcases List.mem_cons.mp hmem with heq | hmem
        · exact hc heq.symm
        · exact ih hr hmem
    · exact absurd h (by simp)

lemma rfindColon_some : ∀ (t : List Char) (i : Nat), rfindColon t = some i →
    i < t.length ∧ t.getD i ' ' = ':' ∧ ':' ∉ t.drop (i + 1) := by
  intro t
  induction t with
  | nil => intro i h; exact absurd h (by simp [rfindColon])
  | cons c rest ih =>
    intro i h
    rw [rfindColon] at h
    rcases hr : rfindColon rest with _ | j <;> rw [hr] at h
    · by_cases hc : c = ':'
      · rw [if_pos hc] at h
        injection h with h
        subst h
        refine ⟨by simp, by simpa using hc, ?_⟩
        simpa using not_mem_of_rfindColon_none rest hr
      · rw [if_neg hc] at h
        exact absurd h (by simp)
    · injection h with h
      subst h
      obtain ⟨h1, h2, h3⟩ := ih j hr
      exact ⟨by simpa using h1, by simpa using h2, by simpa using h3⟩

lemma rfindColon_last : ∀ (pre suf : List Char), ':' ∉ suf →
    rfindColon (pre ++ ':' :: suf) = some pre.length := by
  intro pre
  induction pre with
  | nil =>
    intro suf hs
    rw [List.nil_append, rfindColon, rfindColon_eq_none suf hs]
    simp
  | cons c pre' ih =>
    intro suf hs
    rw [List.cons_append, rfindColon, ih suf hs]
    simp

/-- Unfolding of a successful `sigOfPara`. -/
lemma sigOfPara_some {off : Nat} {full : List Char} {p : Para} {f : Field}
    (h : sigOfPara off full p = some f) :
    ∃ cp, rfindColon p.text = some cp ∧
      p.text.drop (cp + 1) ≠ [] ∧
      (∀ c ∈ p.text.drop (cp + 1), c = ' ' ∨ c = '\t') ∧
      '\t' ∈ p.text.drop (cp + 1) ∧
      f.ftype = .signature_line ∧ f.value = [] ∧
      f.start = off + cp + 1 ∧ f.stop = off + p.text.length ∧
      f.tabs = (p.text.drop (cp + 1)).count '\t' ∧
      f.spaces = (p.text.drop (cp + 1)).count ' ' := by
  simp only [sigOfPara] at h
  split at h
  · exact absurd h (by simp)
  · split at h
    · exact absurd h (by simp)
    · rename_i cp hcp
      split at h
      · exact absurd h (by simp)
      · split at h
        · exact absurd h (by simp)
        · split at h
          · exact absurd h (by simp)
          · rename_i hne hall htab
            injection h with h
            subst h
            refine ⟨cp, hcp, hne, ?_, ?_, rfl, rfl, rfl, rfl, rfl, rfl⟩
            · intro c hc
              have := of_not_not hall
              rw [List.all_eq_true] at this
              simpa using this c hc
            · have := of_not_not htab
              simpa [List.contains] using this

/-- Membership in `detect_signature_lines`, with the paragraph index. -/
lemma mem_detect_signature_lines {paras : List Para} {full : List Char}
    {f : Field} (h : f ∈ detect_signature_lines paras full) :
    ∃ i, i < paras.length ∧
      sigOfPara ((build_offsets (paras.map Para.text)).getD i 0) full
        (paras.getD i {}) = some f := by
  unfold detect_signature_lines at h
  obtain ⟨po, hpo, hsig⟩ := List.mem_filterMap.mp h
  obtain ⟨i, hi⟩ := List.mem_iff_getElem?.mp hpo
  obtain ⟨h1, h2⟩ := List.getElem?_zip_eq_some.mp hi
  have hlt : i < paras.length := by
    have := List.getElem?_eq_some_iff.mp h1
    exact this.choose
  refine ⟨i, hlt, ?_⟩
  have e1 : paras.getD i {} = po.1 := by
    rw [List.getD_eq_getElem?_getD, h1]; rfl
  have e2 : (build_offsets (paras.map Para.text)).getD i 0 = po.2 := by
    rw [List.getD_eq_getElem?_getD, h2]; rfl
  rw [e1, e2]
  exact hsig

/-- On lists of spaces and tabs, the two counts add up to the length. -/
lemma count_space_tab : ∀ (l : List Char), (∀ c ∈ l, c = ' ' ∨ c = '\t') →
    l.count '\t' + l.count ' ' = l.length := by
  intro l
  induction l with
  | nil => simp
  | cons c rest ih =>
    intro hall
    have hrest := ih fun c hc => hall c (List.mem_cons_of_mem _ hc)
    rcases hall c (List.mem_cons_self c rest) with rfl | rfl <;>
      simp [List.count_cons, hrest] <;> omega

end Lemmas2

/-- C1: every field returned by `detect_placeholders` satisfies
`0 ≤ start < stop ≤ len(full_text)` (`start` is a `Nat`, so `0 ≤ start` is
inherent); the slice `full_text[start:stop]` equals `value` for bracketed
fields and consists only of spaces and tabs for signature-line fields. -/
theorem claim_C1 (doc : Container) :
    ∀ f ∈ detect_placeholders doc,
      f.start < f.stop ∧ f.stop ≤ (fullTextOf doc).length ∧
      (f.ftype = .bracketed →
        pySlice (fullTextOf doc) f.start f.stop = f.value) ∧
      (f.ftype = .signature_line →
        ∀ c ∈ pySlice (fullTextOf doc) f.start f.stop, c = ' ' ∨ c = '\t') := by
  intro f hf
  obtain ⟨g, hg, i, rfl⟩ := mem_detect_placeholders hf
  rcases hg with hg | hg
  · obtain ⟨hty, hlab, n, hm, he, hv⟩ := mem_detect_bracketed hg
    have h1 : 1 ≤ n := matchAt_pos hm
    have h2 : n ≤ ((fullTextOf doc).drop g.start).length := matchAt_le hm
    rw [List.length_drop] at h2
    have hlen : g.start + n ≤ (fullTextOf doc).length := by omega
    refine ⟨by simp [he]; omega, by simp [he]; omega, ?_, ?_⟩
    · intro _
      simp only
      rw [hv]
    · intro habs
      simp only at habs
      rw [hty] at habs
      exact absurd habs (by simp)
  · obtain ⟨j, hj, hsig⟩ := mem_detect_signature_lines hg
    obtain ⟨cp, hcp, hne, hall, htab, hty, hval, hstart, hstop, htabs, hsp⟩ :=
      sigOfPara_some hsig
    set texts := (allParagraphs doc).map Para.text with htexts
    set t := ((allParagraphs doc).getD j {}).text with ht
    have htj : texts.getD j [] = t := by
      rw [htexts, ht, List.getD_eq_getElem?_getD, List.getD_eq_getElem?_getD,
        List.getElem?_map]
      rcases hq : (allParagraphs doc)[j]? with _ | p
      · exact absurd (List.getElem?_eq_some_iff.mpr ⟨hj, rfl⟩)
          (by rw [hq]; simp)
      · rfl
    have hjt : j < texts.length := by rw [htexts]; simpa using hj
    have hcpt : cp < t.length := (rfindColon_some _ _ hcp).1
    have hlenne : 0 < (t.drop (cp + 1)).length := List.length_pos.mpr hne
    have hload : (t.drop (cp + 1)).length = t.length - (cp + 1) :=
      List.length_drop _ _
    have hcp1 : cp + 1 ≤ t.length := by omega
    obtain ⟨suf, hdrop, hbound⟩ :=
      joinNl_drop texts j hjt (cp + 1) (by rw [htj]; exact hcp1)
    rw [htj] at hdrop hbound
    have hfull : fullTextOf doc = joinNl texts := by rw [htexts]; rfl
    have hoff : (build_offsets (((allParagraphs doc)).map Para.text)).getD j 0 =
        (build_offsets texts).getD j 0 := by rw [htexts]
    have hslice : pySlice (fullTextOf doc) ({ g with
        id := mkId g.ftype g.line i } : Field).start ({ g with
        id := mkId g.ftype g.line i } : Field).stop = t.drop (cp + 1) := by
      simp only [hstart, hstop, hoff]
      rw [pySlice, hfull]
      have e1 : (build_offsets texts).getD j 0 + cp + 1 =
          (build_offsets texts).getD j 0 + (cp + 1) := by omega
      rw [e1, hdrop]
      have e2 : (build_offsets texts).getD j 0 + t.length -
          ((build_offsets texts).getD j 0 + (cp + 1)) =
          (t.drop (cp + 1)).length := by omega
      rw [e2]
      exact List.take_left _ _
    refine ⟨?_, ?_, ?_, ?_⟩
    · simp only [hstart, hstop]
      omega
    · simp only [hstop, hfull, hoff]
      omega
    · intro habs
      simp only at habs
      rw [hty] at habs
      exact absurd habs (by simp)
    · intro _
      rw [hslice]
      exact hall

/-- C1 witness: instantiated on a one-paragraph document containing the
bracket token `"[x]"`. -/
theorem claim_C1_witness :
    ({ ftype := .bracketed, value := "[x]".data, start := 2, stop := 5,
       line := 1, id := "bracketed@L1@0".data } : Field).start <
      ({ ftype := .bracketed, value := "[x]".data, start := 2, stop := 5,
         line := 1, id := "bracketed@L1@0".data } : Field).stop :=
  (claim_C1 (Container.mk [{ text := "a [x] b".data }] Tables.nil) _
    (by decide)).1

/-- C9: for every signature_line field produced by detection,
`metadata.tabs + metadata.spaces` equals `end - start` (the length of the
trailing padding), and `metadata.tabs ≥ 1`. -/
theorem claim_C9 (doc : Container) :
    ∀ f ∈ detect_placeholders doc, f.ftype = .signature_line →
      f.tabs + f.spaces = f.stop - f.start ∧ 1 ≤ f.tabs := by
  intro f hf hty
  obtain ⟨g, hg, i, rfl⟩ := mem_detect_placeholders hf
  rcases hg with hg | hg
  · obtain ⟨hb, -, -⟩ := mem_detect_bracketed hg
    simp only at hty
    rw [hb] at hty
    exact absurd hty (by simp)
  · obtain ⟨j, hj, hsig⟩ := mem_detect_signature_lines hg
    obtain ⟨cp, hcp, hne, hall, htab, -, -, hstart, hstop, htabs, hsp⟩ :=
      sigOfPara_some hsig
    have hcpt : cp < ((allParagraphs doc).getD j {}).text.length :=
      (rfindColon_some _ _ hcp).1
    constructor
    · simp only
      rw [htabs, hsp, count_space_tab _ hall, hstart, hstop, List.length_drop]
      omega
    · simp only
      rw [htabs]
      exact List.count_pos_iff.mpr htab

/-- C9 witness: instantiated on a one-paragraph document `"Name: \t"`. -/
theorem claim_C9_witness :
    ({ ftype := .signature_line, label := "Name".data, start := 5, stop := 8,
       line := 1, tabs := 1, spaces := 2, id := "signature_line@L1@0".data }
        : Field).tabs +
      ({ ftype := .signature_line, label := "Name".data, start := 5, stop := 8,
         line := 1, tabs := 1, spaces := 2,
         id := "signature_line@L1@0".data } : Field).spaces = 8 - 5 :=
  (claim_C9 (Container.mk [{ text := "Name: \t ".data }] Tables.nil) _
    (by decide) (by decide)).1

section C4Lemmas

lemma length_filterMap_eq_countP {α β : Type} (f : α → Option β) :
    ∀ (l : List α), (l.filterMap f).length = l.countP (fun a => (f a).isSome) := by
  intro l
  induction l with
  | nil => rfl
  | cons x xs ih =>
    rw [List.filterMap_cons, List.countP_cons]
    rcases hx : f x with _ | b
    · simp [hx, ih]
    · simp [hx, ih]

/-- `sigOfPara` fires exactly on the trigger condition (and does not depend
on the offset or full text for that). -/
lemma sigOfPara_isSome (off : Nat) (full : List Char) (p : Para) :
    (sigOfPara off full p).isSome = sigTrigger p.text := by
  rcases hr : rfindColon p.text with _ | cp
  · by_cases htext : p.text = []
    · simp [sigOfPara, sigTrigger, htext, hr, show rfindColon [] = none from rfl]
    · simp [sigOfPara, sigTrigger, htext, hr]
  · have htext : ¬ p.text = [] := by
      intro he
      rw [he] at hr
      exact absurd hr (by simp [rfindColon])
    by_cases h1 : p.text.drop (cp + 1) = []
    · have hL : sigOfPara off full p = none := by
        simp [sigOfPara, htext, hr, h1]
      have hR : sigTrigger p.text = false := by
        simp [sigTrigger, hr, h1]
      rw [hL, hR]
      rfl
    · by_cases h2 : ∀ c ∈ p.text.drop (cp + 1), c = ' ' ∨ c = '\t'
      · have hno : ¬ ∃ x ∈ p.text.drop (cp + 1), ¬x = ' ' ∧ ¬x = '\t' := by
          rintro ⟨x, hx, hx1, hx2⟩
          rcases h2 x hx with h | h
          · exact hx1 h
          · exact hx2 h
        by_cases h3 : '\t' ∈ p.text.drop (cp + 1)
        · have hL : (sigOfPara off full p).isSome = true := by
            simp [sigOfPara, htext, hr, h1]
            rw [if_neg hno, if_pos h3]
            rfl
          have hR : sigTrigger p.text = true := by
            simp [sigTrigger, hr, h1]
            exact ⟨h2, h3⟩
          rw [hL, hR]
        · have hL : sigOfPara off full p = none := by
            simp [sigOfPara, htext, hr, h1]
            intro _
            exact h3
          have hR : sigTrigger p.text = false := by
            simp [sigTrigger, hr, h1]
            intro _
            exact h3
          rw [hL, hR]
          rfl
      · have hex : ∃ x ∈ p.text.drop (cp + 1), ¬x = ' ' ∧ ¬x = '\t' := by
          push_neg at h2
          obtain ⟨x, hx, hx1, hx2⟩ := h2
          exact ⟨x, hx, hx1, hx2⟩
        have hL : sigOfPara off full p = none := by
          simp [sigOfPara, htext, hr, h1]
          intro hall
          exact absurd (fun c hc => by
            rcases eq_or_ne c ' ' with h | h
            · exact Or.inl h
            · exact Or.inr (hall c hc h)) h2
        have hR : sigTrigger p.text = false := by
          simp [sigTrigger, hr, h1]
          intro hand
          exact absurd hand h2
        rw [hL, hR]
        rfl

lemma countP_zip_fst (p : Para → Bool) :
    ∀ (paras : List Para) (offs : List Nat), paras.length ≤ offs.length →
      (paras.zip offs).countP (fun po => p po.1) = paras.countP p := by
  intro paras
  induction paras with
  | nil => intro offs _; rfl
  | cons x xs ih =>
    intro offs hlen
    cases offs with
    | nil => simp at hlen
    | cons o os =>
      rw [List.zip_cons_cons, List.countP_cons, List.countP_cons,
        ih os (by simpa using hlen)]

end C4Lemmas

/-- C4: the signature-line scanner emits a field for a flattened paragraph
block iff the block text has a colon whose trailing text is non-empty, all
spaces/tabs, and contains at least one tab; consequently each block
contributes at most one field (the length equals the number of triggering
blocks), and a colon followed by spaces only (no tab) is never detected. -/
theorem claim_C4 (paras : List Para) (full_text : List Char) :
    (detect_signature_lines paras full_text).length =
      (paras.map Para.text).countP sigTrigger ∧
    ∀ (off : Nat) (p : Para),
      (sigOfPara off full_text p).isSome ↔
        ∃ pre suf, p.text = pre ++ ':' :: suf ∧ ':' ∉ suf ∧ suf ≠ [] ∧
          (∀ c ∈ suf, c = ' ' ∨ c = '\t') ∧ '\t' ∈ suf := by
  constructor
  · unfold detect_signature_lines
    rw [length_filterMap_eq_countP]
    have he : (fun po => (sigOfPara po.2 full_text po.1).isSome) =
        (fun (po : Para × Nat) => sigTrigger po.1.text) := by
      funext po
      exact sigOfPara_isSome po.2 full_text po.1
    rw [he, countP_zip_fst (fun p => sigTrigger p.text) paras _
      (by rw [build_offsets_length, List.length_map]), List.countP_map]
    rfl
  · intro off p
    constructor
    · intro hsome
      obtain ⟨f, hf⟩ := Option.isSome_iff_exists.mp hsome
      obtain ⟨cp, hcp, hne, hall, htab, -⟩ := sigOfPara_some hf
      obtain ⟨hlt, hgd, hnomem⟩ := rfindColon_some _ _ hcp
      refine ⟨p.text.take cp, p.text.drop (cp + 1), ?_, hnomem, hne, hall, htab⟩
      have hgetc : p.text[cp] = ':' := by
        rw [← List.getD_eq_getElem p.text ' ' hlt]
        exact hgd
      conv_lhs => rw [← List.take_append_drop cp p.text]
      rw [List.drop_eq_getElem_cons hlt, hgetc]
    · rintro ⟨pre, suf, hdec, hnomem, hne, hall, htab⟩
      have hr : rfindColon p.text = some pre.length := by
        rw [hdec]; exact rfindColon_last pre suf hnomem
      have htext : ¬ p.text = [] := by
        rw [hdec]; simp
      have hdrop : p.text.drop (pre.length + 1) = suf := by
        rw [hdec]
        have e : pre ++ ':' :: suf = (pre ++ [':']) ++ suf := by simp
        rw [e]
        have e2 : pre.length + 1 = (pre ++ [':']).length := by simp
        rw [e2, List.drop_left]
      simp only [sigOfPara, htext, if_false, hr, hdrop]
      rw [if_neg hne, if_neg (not_not_intro (List.all_eq_true.mpr
        (by intro c hc; simpa using hall c hc))),
        if_neg (not_not_intro (by simpa [List.contains] using htab))]
      rfl

section C2Lemmas

lemma toDigitsCore_succ (b fuel n : Nat) (ds : List Char) :
    Nat.toDigitsCore b (fuel + 1) n ds =
      if n / b = 0 then Nat.digitChar (n % b) :: ds
      else Nat.toDigitsCore b fuel (n / b) (Nat.digitChar (n % b) :: ds) := rfl

lemma toDigitsCore_acc : ∀ (fuel n : Nat) (ds : List Char),
    Nat.toDigitsCore 10 fuel n ds = Nat.toDigitsCore 10 fuel n [] ++ ds := by
  intro fuel
  induction fuel with
  | zero => intro n ds; rfl
  | succ fuel ih =>
    intro n ds
    rw [toDigitsCore_succ, toDigitsCore_succ]
    by_cases hz : n / 10 = 0
    · simp [hz]
    · rw [if_neg hz, if_neg hz, ih (n / 10) (Nat.digitChar (n % 10) :: ds),
        ih (n / 10) [Nat.digitChar (n % 10)]]
      simp

lemma listVal_append_singleton (xs : List Char) (c : Char) :
    listVal (xs ++ [c]) = 10 * listVal xs + digitVal c := by
  simp [listVal, List.foldl_append]

lemma digitVal_digitChar {k : Nat} (h : k < 10) :
    digitVal (Nat.digitChar k) = k := by
  interval_cases k <;> decide

lemma digitChar_isDigit {k : Nat} (h : k < 10) : (Nat.digitChar k).isDigit := by
  interval_cases k <;> decide

lemma toDigitsCore_val : ∀ (fuel n : Nat), n < fuel →
    listVal (Nat.toDigitsCore 10 fuel n []) = n := by
  intro fuel
  induction fuel with
  | zero => intro n hn; omega
  | succ fuel ih =>
    intro n hn
    have hmod : n % 10 < 10 := Nat.mod_lt n (by norm_num)
    have hdm : 10 * (n / 10) + n % 10 = n := Nat.div_add_mod n 10
    rw [toDigitsCore_succ]
    by_cases hz : n / 10 = 0
    · rw [if_pos hz]
      have : listVal [Nat.digitChar (n % 10)] = digitVal (Nat.digitChar (n % 10)) := by
        simp [listVal]
      rw [this, digitVal_digitChar hmod]
      omega
    · rw [if_neg hz]
      rw [toDigitsCore_acc fuel (n / 10) [Nat.digitChar (n % 10)],
        listVal_append_singleton, digitVal_digitChar hmod]
      have hpos : 0 < n := by
        rcases Nat.eq_zero_or_pos n with rfl | h
        · simp at hz
        · exact h
      have hlt : n / 10 < fuel := by
        have : n / 10 < n := Nat.div_lt_self hpos (by norm_num)
        omega
      rw [ih (n / 10) hlt]
      omega

lemma reprData_eq (n : Nat) :
    (Nat.repr n).data = Nat.toDigitsCore 10 (n + 1) n [] := rfl

lemma toDigitsCore_digits : ∀ (fuel n : Nat) (ds : List Char),
    (∀ c ∈ ds, c.isDigit) →
    ∀ c ∈ Nat.toDigitsCore 10 fuel n ds, c.isDigit := by
  intro fuel
  induction fuel with
  | zero => intro n ds h; exact h
  | succ fuel ih =>
    intro n ds h c hc
    rw [toDigitsCore_succ] at hc
    have hmod : n % 10 < 10 := Nat.mod_lt n (by norm_num)
    have hcons : ∀ x ∈ Nat.digitChar (n % 10) :: ds, x.isDigit := by
      intro x hx
      rcases List.mem_cons.mp hx with rfl | hx
      · exact digitChar_isDigit hmod
      · exact h x hx
    by_cases hz : n / 10 = 0
    · rw [if_pos hz] at hc
      exact hcons c hc
    · rw [if_neg hz] at hc
      exact ih (n / 10) _ hcons c hc

lemma repr_digits (n : Nat) : ∀ c ∈ (Nat.repr n).data, c.isDigit := by
  rw [reprData_eq]
  exact toDigitsCore_digits (n + 1) n [] (by simp)

lemma repr_val (n : Nat) : listVal (Nat.repr n).data = n := by
  rw [reprData_eq]
  exact toDigitsCore_val (n + 1) n (by omega)

lemma reprData_injective {m n : Nat} (h : (Nat.repr m).data = (Nat.repr n).data) :
    m = n := by
  have := repr_val m
  rw [h, repr_val n] at this
  omega

lemma takeWhile_append_of_all {p : Char → Bool} :
    ∀ (xs : List Char), (∀ x ∈ xs, p x) → ∀ (y : Char) (ys : List Char),
      ¬ p y → (xs ++ y :: ys).takeWhile p = xs := by
  intro xs
  induction xs with
  | nil =>
    intro _ y ys hy
    rw [List.nil_append, List.takeWhile_cons_of_neg hy]
  | cons x xs ih =>
    intro hall y ys hy
    rw [List.cons_append,
      List.takeWhile_cons_of_pos (hall x (List.mem_cons_self x xs)),
      ih (fun z hz => hall z (List.mem_cons_of_mem x hz)) y ys hy]

lemma lastSeg_append (a d : List Char) (hd : '@' ∉ d) :
    lastSeg (a ++ '@' :: d) = d := by
  unfold lastSeg
  have e : (a ++ '@' :: d).reverse = d.reverse ++ '@' :: a.reverse := by
    simp
  rw [e, takeWhile_append_of_all d.reverse
    (fun x hx => by
      simp only [decide_eq_true_eq]
      intro hx2
      exact hd (by rw [← hx2]; exact (List.mem_reverse).mp hx))
    '@' a.reverse (by simp), List.reverse_reverse]

lemma atData : ("@".data : List Char) = ['@'] := rfl

lemma mkId_lastSeg (t : FieldType) (line i : Nat) :
    lastSeg (mkId t line i) = (Nat.repr i).data := by
  unfold mkId
  have e : t.str ++ "@L".data ++ (Nat.repr line).data ++ "@".data ++
      (Nat.repr i).data =
      (t.str ++ "@L".data ++ (Nat.repr line).data) ++ '@' :: (Nat.repr i).data := by
    rw [atData]
    simp
  rw [e]
  exact lastSeg_append _ _ (fun hm => by
    have := repr_digits i '@' hm
    exact absurd this (by decide))

lemma mkId_inj_idx {t1 t2 : FieldType} {l1 l2 i j : Nat}
    (h : mkId t1 l1 i = mkId t2 l2 j) : i = j := by
  have h1 := mkId_lastSeg t1 l1 i
  have h2 := mkId_lastSeg t2 l2 j
  rw [h] at h1
  exact reprData_injective (h1.symm.trans h2)

lemma mem_enumFrom_le {x : Nat × Field} :
    ∀ (l : List Field) (k : Nat), x ∈ List.enumFrom k l → k ≤ x.1 := by
  intro l
  induction l with
  | nil => intro k h; simp at h
  | cons y ys ih =>
    intro k h
    rw [List.enumFrom] at h
    rcases List.mem_cons.mp h with rfl | h
    · exact Nat.le_refl _
    · have := ih (k + 1) h
      omega

lemma enumFrom_pairwise : ∀ (l : List Field) (k : Nat),
    (List.enumFrom k l).Pairwise (fun a b => a.1 < b.1) := by
  intro l
  induction l with
  | nil => intro k; simp
  | cons y ys ih =>
    intro k
    rw [List.enumFrom]
    refine List.Pairwise.cons ?_ (ih (k + 1))
    intro b hb
    have := mem_enumFrom_le ys (k + 1) hb
    omega

end C2Lemmas

/-- C2: the `id` strings assigned by `detect_placeholders`
(`f"{type}@L{line}@{idx}"` with `idx` the position in the start-sorted list)
are pairwise distinct for every document: the decimal index after the last
`'@'` differs between any two of them. -/
theorem claim_C2 (doc : Container) :
    ((detect_placeholders doc).map Field.id).Nodup := by
  unfold detect_placeholders assignIds
  rw [List.map_map]
  have he : (Field.id ∘ fun ip : Nat × Field =>
      { ip.2 with id := mkId ip.2.ftype ip.2.line ip.1 }) =
      fun ip : Nat × Field => mkId ip.2.ftype ip.2.line ip.1 := rfl
  rw [he]
  refine List.Pairwise.map _ ?_ (enumFrom_pairwise _ 0)
  intro a b hab heq
  exact absurd (mkId_inj_idx heq) (by omega)

section C6Lemmas

lemma deepTexts_mk (ps : List Para) (ts : Tables) :
    deepTexts (.mk ps ts) = ps.map Para.text ++ deepTextsTables ts := rfl

lemma fillContainer_mk (bm sm : List (List Char × List Char)) (ps : List Para)
    (ts : Tables) :
    fillContainer bm sm (.mk ps ts) =
      .mk (ps.map fun p => { p with text := paraFill bm sm p.text })
        (fillTables bm sm ts) := rfl

mutual
theorem deepTexts_fill (bm sm : List (List Char × List Char)) :
    ∀ (c : Container),
      deepTexts (fillContainer bm sm c) = (deepTexts c).map (paraFill bm sm)
  | .mk ps ts => by
    rw [fillContainer_mk, deepTexts_mk, deepTexts_mk,
      deepTexts_fillTables bm sm ts, List.map_append, List.map_map, List.map_map]
    rfl
theorem deepTexts_fillTables (bm sm : List (List Char × List Char)) :
    ∀ (ts : Tables),
      deepTextsTables (fillTables bm sm ts) =
        (deepTextsTables ts).map (paraFill bm sm)
  | .nil => rfl
  | .cons rows rest => by
    show deepTextsRows (fillRows bm sm rows) ++
        deepTextsTables (fillTables bm sm rest) = _
    rw [deepTexts_fillRows bm sm rows, deepTexts_fillTables bm sm rest,
      deepTextsTables, List.map_append]
theorem deepTexts_fillRows (bm sm : List (List Char × List Char)) :
    ∀ (rows : Rows),
      deepTextsRows (fillRows bm sm rows) =
        (deepTextsRows rows).map (paraFill bm sm)
  | .nil => rfl
  | .cons cells rest => by
    show deepTextsCells (fillCells bm sm cells) ++
        deepTextsRows (fillRows bm sm rest) = _
    rw [deepTexts_fillCells bm sm cells, deepTexts_fillRows bm sm rest,
      deepTextsRows, List.map_append]
theorem deepTexts_fillCells (bm sm : List (List Char × List Char)) :
    ∀ (cells : Cells),
      deepTextsCells (fillCells bm sm cells) =
        (deepTextsCells cells).map (paraFill bm sm)
  | .nil => rfl
  | .cons c rest => by
    show deepTexts (fillContainer bm sm c) ++
        deepTextsCells (fillCells bm sm rest) = _
    rw [deepTexts_fill bm sm c, deepTexts_fillCells bm sm rest,
      deepTextsCells, List.map_append]
end

lemma pySplit_succ (fuel : Nat) (t k : List Char) :
    pySplit (fuel + 1) t k =
      if k = [] then [t]
      else if k.isPrefixOf t then [] :: pySplit fuel (t.drop k.length) k
      else match t with
        | [] => [[]]
        | c :: rest =>
          match pySplit fuel rest k with
          | [] => [[c]]
          | p :: ps => (c :: p) :: ps := rfl

lemma pyReplace_succ (fuel : Nat) (t k v : List Char) :
    pyReplace (fuel + 1) t k v =
      if k = [] then (match t with
        | [] => v
        | c :: rest => v ++ c :: pyReplace fuel rest k v)
      else if k.isPrefixOf t then v ++ pyReplace fuel (t.drop k.length) k v
      else match t with
        | [] => []
        | c :: rest => c :: pyReplace fuel rest k v := rfl

lemma pySplit_ne_nil : ∀ (fuel : Nat) (t k : List Char), pySplit fuel t k ≠ [] := by
  intro fuel
  cases fuel with
  | zero => intro t k; simp [pySplit]
  | succ fuel =>
    intro t k
    rw [pySplit_succ]
    split
    · simp
    · split
      · simp
      · rcases t with _ | ⟨c, rest⟩
        · simp
        · rcases hq : pySplit fuel rest k with _ | ⟨p, ps⟩ <;> simp [hq]

lemma intercalate_single (s x : List Char) : List.intercalate s [x] = x := by
  simp [List.intercalate]

lemma intercalate_cons2 (s x y : List Char) (l : List (List Char)) :
    List.intercalate s (x :: y :: l) = x ++ s ++ List.intercalate s (y :: l) := by
  simp [List.intercalate, List.intersperse]

/-- A prefix occurrence splits the list. -/
lemma of_isPrefixOf {k t : List Char} (h : k.isPrefixOf t) :
    t = k ++ t.drop k.length ∧ t.length = k.length + (t.drop k.length).length := by
  obtain ⟨s, hs⟩ := List.isPrefixOf_iff_prefix.mp h
  constructor
  · rw [← hs, List.drop_left]
  · rw [← hs, List.drop_left, List.length_append]

lemma pySplit_pre (fuel : Nat) (t k : List Char) (hk : k ≠ [])
    (hpre : k.isPrefixOf t) :
    pySplit (fuel + 1) t k = [] :: pySplit fuel (t.drop k.length) k := by
  rw [pySplit_succ, if_neg hk, if_pos hpre]

lemma pySplit_nil (fuel : Nat) (k : List Char) (hk : k ≠ []) :
    pySplit (fuel + 1) [] k = [[]] := by
  have hpre : ¬ k.isPrefixOf ([] : List Char) := by
    rcases k with _ | ⟨a, b⟩
    · exact absurd rfl hk
    · simp [List.isPrefixOf]
  rw [pySplit_succ, if_neg hk, if_neg hpre]

lemma pySplit_cons (fuel : Nat) (c : Char) (rest k : List Char) (hk : k ≠ [])
    (hpre : ¬ k.isPrefixOf (c :: rest)) {p : List Char} {ps : List (List Char)}
    (hq : pySplit fuel rest k = p :: ps) :
    pySplit (fuel + 1) (c :: rest) k = (c :: p) :: ps := by
  rw [pySplit_succ, if_neg hk, if_neg hpre]
  show (match pySplit fuel rest k with
    | [] => [[c]]
    | p :: ps => (c :: p) :: ps) = (c :: p) :: ps
  rw [hq]

lemma pyReplace_pre (fuel : Nat) (t k v : List Char) (hk : k ≠ [])
    (hpre : k.isPrefixOf t) :
    pyReplace (fuel + 1) t k v = v ++ pyReplace fuel (t.drop k.length) k v := by
  rw [pyReplace_succ, if_neg hk, if_pos hpre]

lemma pyReplace_nil (fuel : Nat) (k v : List Char) (hk : k ≠ []) :
    pyReplace (fuel + 1) [] k v = [] := by
  have hpre : ¬ k.isPrefixOf ([] : List Char) := by
    rcases k with _ | ⟨a, b⟩
    · exact absurd rfl hk
    · simp [List.isPrefixOf]
  rw [pyReplace_succ, if_neg hk, if_neg hpre]

lemma pyReplace_cons (fuel : Nat) (c : Char) (rest k v : List Char)
    (hk : k ≠ []) (hpre : ¬ k.isPrefixOf (c :: rest)) :
    pyReplace (fuel + 1) (c :: rest) k v = c :: pyReplace fuel rest k v := by
  rw [pyReplace_succ, if_neg hk, if_neg hpre]

/-- `"".join`-style reconstruction: joining the split parts with the
separator gives back the string. -/
lemma intercalate_pySplit : ∀ (fuel : Nat) (t k : List Char), k ≠ [] →
    t.length < fuel → List.intercalate k (pySplit fuel t k) = t := by
  intro fuel
  induction fuel with
  | zero => intro t k _ h; omega
  | succ fuel ih =>
    intro t k hk hlen
    by_cases hpre : k.isPrefixOf t
    · rw [pySplit_pre fuel t k hk hpre]
      obtain ⟨hdec, hlen2⟩ := of_isPrefixOf hpre
      have hkpos : 0 < k.length := List.length_pos.mpr hk
      have hrec : (t.drop k.length).length < fuel := by omega
      rcases hq : pySplit fuel (t.drop k.length) k with _ | ⟨p, ps⟩
      · exact absurd hq (pySplit_ne_nil fuel _ k)
      · rw [intercalate_cons2, ← hq, ih _ k hk hrec]
        simpa using hdec.symm
    · rcases t with _ | ⟨c, rest⟩
      · rw [pySplit_nil fuel k hk, intercalate_single]
      · have hrec : rest.length < fuel := by
          simp only [List.length_cons] at hlen
          omega
        rcases hq : pySplit fuel rest k with _ | ⟨p, ps⟩
        · exact absurd hq (pySplit_ne_nil fuel rest k)
        · rw [pySplit_cons fuel c rest k hk hpre hq]
          have hjoin := ih rest k hk hrec
          rw [hq] at hjoin
          rcases ps with _ | ⟨p2, ps2⟩
          · rw [intercalate_single]
            rw [intercalate_single] at hjoin
            rw [hjoin]
          · rw [intercalate_cons2]
            rw [intercalate_cons2] at hjoin
            simp only [List.cons_append]
            rw [hjoin]

/-- `str.replace` is split-then-join with the replacement. -/
lemma pyReplace_eq_intercalate : ∀ (fuel : Nat) (t k v : List Char), k ≠ [] →
    t.length < fuel →
    pyReplace fuel t k v = List.intercalate v (pySplit fuel t k) := by
  intro fuel
  induction fuel with
  | zero => intro t k v _ h; omega
  | succ fuel ih =>
    intro t k v hk hlen
    by_cases hpre : k.isPrefixOf t
    · rw [pySplit_pre fuel t k hk hpre, pyReplace_pre fuel t k v hk hpre]
      obtain ⟨hdec, hlen2⟩ := of_isPrefixOf hpre
      have hkpos : 0 < k.length := List.length_pos.mpr hk
      have hrec : (t.drop k.length).length < fuel := by omega
      rcases hq : pySplit fuel (t.drop k.length) k with _ | ⟨p, ps⟩
      · exact absurd hq (pySplit_ne_nil fuel _ k)
      · rw [intercalate_cons2, ← hq, ← ih _ k v hk hrec]
        simp
    · rcases t with _ | ⟨c, rest⟩
      · rw [pySplit_nil fuel k hk, pyReplace_nil fuel k v hk, intercalate_single]
      · have hrec : rest.length < fuel := by
          simp only [List.length_cons] at hlen
          omega
        rcases hq : pySplit fuel rest k with _ | ⟨p, ps⟩
        · exact absurd hq (pySplit_ne_nil fuel rest k)
        · rw [pySplit_cons fuel c rest k hk hpre hq,
            pyReplace_cons fuel c rest k v hk hpre]
          have hrepl := ih rest k v hk hrec
          rw [hq] at hrepl
          rcases ps with _ | ⟨p2, ps2⟩
          · rw [intercalate_single]
            rw [intercalate_single] at hrepl
            rw [hrepl]
          · rw [intercalate_cons2]
            rw [intercalate_cons2] at hrepl
            simp only [List.cons_append]
            rw [hrepl]

/-- A head part produced by the split is a prefix of the input. -/
lemma pySplit_head_prefix (fuel : Nat) (t k : List Char) (hk : k ≠ [])
    (hfuel : t.length < fuel) {p : List Char} {ps : List (List Char)}
    (hq : pySplit fuel t k = p :: ps) : p <+: t := by
  have := intercalate_pySplit fuel t k hk hfuel
  rw [hq] at this
  rcases ps with _ | ⟨p2, ps2⟩
  · rw [intercalate_single] at this
    rw [this]
  · rw [intercalate_cons2] at this
    rw [← this]
    have hx := List.prefix_append p (k ++ List.intercalate k (p2 :: ps2))
    rwa [← List.append_assoc] at hx

/-- No part of the split contains the separator. -/
lemma pySplit_no_key : ∀ (fuel : Nat) (t k : List Char), k ≠ [] →
    t.length < fuel → ∀ part ∈ pySplit fuel t k, ¬ k <:+: part := by
  intro fuel
  induction fuel with
  | zero => intro t k _ h; omega
  | succ fuel ih =>
    intro t k hk hlen part hpart
    by_cases hpre : k.isPrefixOf t
    · rw [pySplit_pre fuel t k hk hpre] at hpart
      obtain ⟨hdec, hlen2⟩ := of_isPrefixOf hpre
      have hkpos : 0 < k.length := List.length_pos.mpr hk
      rcases List.mem_cons.mp hpart with rfl | hpart
      · intro habs
        exact hk (List.infix_nil.mp habs)
      · exact ih _ k hk (by omega) part hpart
    · rcases t with _ | ⟨c, rest⟩
      · rw [pySplit_nil fuel k hk] at hpart
        rcases List.mem_cons.mp hpart with rfl | hpart
        · intro habs
          exact hk (List.infix_nil.mp habs)
        · simp at hpart
      · have hrec : rest.length < fuel := by
          simp only [List.length_cons] at hlen
          omega
        rcases hq : pySplit fuel rest k with _ | ⟨p, ps⟩
        · exact absurd hq (pySplit_ne_nil fuel rest k)
        · rw [pySplit_cons fuel c rest k hk hpre hq] at hpart
          rcases List.mem_cons.mp hpart with rfl | hpart
          · intro habs
            rcases List.infix_cons_iff.mp habs with habs | habs
            · have hp : p <+: rest := pySplit_head_prefix fuel rest k hk hrec hq
              obtain ⟨s1, hs1⟩ := habs
              obtain ⟨s2, hs2⟩ := hp
              have : k.isPrefixOf (c :: rest) := by
                rw [List.isPrefixOf_iff_prefix]
                refine ⟨s1 ++ s2, ?_⟩
                rw [← List.append_assoc, hs1]
                simp [← hs2]
              exact hpre this
            · exact ih rest k hk hrec p
                (by rw [hq]; exact List.mem_cons_self p ps) habs
          · exact ih rest k hk hrec part
              (by rw [hq]; exact List.mem_cons_of_mem p hpart)

end C6Lemmas

section SigApplyLemmas

lemma lastOccIdx_none : ∀ (t k : List Char), lastOccIdx t k = none →
    ∀ j, ¬ k.isPrefixOf (t.drop j) := by
  intro t
  induction t with
  | nil =>
    intro k h j
    rw [lastOccIdx] at h
    intro hpre
    rw [List.drop_nil] at hpre
    rw [if_pos hpre] at h
    exact absurd h (by simp)
  | cons c rest ih =>
    intro k h j
    rw [lastOccIdx] at h
    rcases hr : lastOccIdx rest k with _ | i <;> rw [hr] at h
    · cases j with
      | zero =>
        intro hpre
        rw [List.drop_zero] at hpre
        rw [if_pos hpre] at h
        exact absurd h (by simp)
      | succ j =>
        rw [List.drop_succ_cons]
        exact ih k hr j
    · exact absurd h (by simp)

lemma lastOccIdx_some : ∀ (t k : List Char) (i : Nat), lastOccIdx t k = some i →
    i ≤ t.length ∧ k.isPrefixOf (t.drop i) ∧
      ∀ j, k.isPrefixOf (t.drop j) → j ≤ t.length → j ≤ i := by
  intro t
  induction t with
  | nil =>
    intro k i h
    rw [lastOccIdx] at h
    by_cases hp : k.isPrefixOf ([] : List Char)
    · rw [if_pos hp] at h
      injection h with h
      subst h
      exact ⟨Nat.le_refl _, hp, fun j _ hj => by simpa using hj⟩
    · rw [if_neg hp] at h
      exact absurd h (by simp)
  | cons c rest ih =>
    intro k i h
    rw [lastOccIdx] at h
    rcases hr : lastOccIdx rest k with _ | i'
    · rw [hr] at h
      have h' : (if k.isPrefixOf (c :: rest) then some 0 else none) = some i := h
      by_cases hp : k.isPrefixOf (c :: rest)
      · rw [if_pos hp] at h'
        injection h' with h'
        subst h'
        refine ⟨Nat.zero_le _, by simpa using hp, ?_⟩
        intro j hj _
        cases j with
        | zero => exact Nat.le_refl 0
        | succ j =>
          rw [List.drop_succ_cons] at hj
          exact absurd hj (lastOccIdx_none rest k hr j)
      · rw [if_neg hp] at h'
        exact absurd h' (by simp)
    · rw [hr] at h
      have h' : some (i' + 1) = some i := h
      injection h' with h'
      subst h'
      obtain ⟨h1, h2, h3⟩ := ih k i' hr
      refine ⟨by simp; omega, by simpa using h2, ?_⟩
      intro j hj hjl
      cases j with
      | zero => exact Nat.zero_le _
      | succ j =>
        rw [List.drop_succ_cons] at hj
        have := h3 j hj (by simpa using hjl)
        omega

lemma containsSub_exists : ∀ (t k : List Char), containsSub t k = true →
    ∃ j, k.isPrefixOf (t.drop j) := by
  intro t
  induction t with
  | nil =>
    intro k h
    rw [containsSub] at h
    refine ⟨0, ?_⟩
    rw [List.isEmpty_iff] at h
    subst h
    rfl
  | cons c rest ih =>
    intro k h
    rw [containsSub, Bool.or_eq_true] at h
    rcases h with h | h
    · exact ⟨0, by simpa using h⟩
    · obtain ⟨j, hj⟩ := ih k h
      exact ⟨j + 1, by simpa using hj⟩

/-- The signature replacement appends after the last occurrence of the key,
leaving everything before it unchanged. -/
lemma sigApply_of_contains {t k v : List Char} (hk : k ≠ [])
    (hc : containsSub t k = true) :
    ∃ pre suf, t = pre ++ k ++ suf ∧
      (∀ pre2 suf2, t = pre2 ++ k ++ suf2 → pre2.length ≤ pre.length) ∧
      sigApply k v t = pre ++ k ++ ' ' :: v := by
  obtain ⟨j0, hj0⟩ := containsSub_exists t k hc
  rcases hlast : lastOccIdx t k with _ | i
  · exact absurd hj0 (lastOccIdx_none t k hlast j0)
  · obtain ⟨hile, hpre, hmax⟩ := lastOccIdx_some t k i hlast
    obtain ⟨hdec, -⟩ := of_isPrefixOf hpre
    have hlentake : (t.take i).length = i := by
      rw [List.length_take]
      omega
    refine ⟨t.take i, t.drop (i + k.length), ?_, ?_, ?_⟩
    · conv_lhs => rw [← List.take_append_drop i t]
      rw [hdec, List.drop_drop, List.append_assoc]
    · intro pre2 suf2 hdec2
      have hpre2 : k.isPrefixOf (t.drop pre2.length) := by
        rw [List.isPrefixOf_iff_prefix]
        refine ⟨suf2, ?_⟩
        rw [hdec2, List.append_assoc, List.drop_left]
      have hlen2 : pre2.length ≤ t.length := by
        rw [hdec2]
        simp
      rw [hlentake]
      exact hmax pre2.length hpre2 hlen2
    · rw [sigApply, if_pos hc, rsplit1, if_neg hk, hlast]
      simp [hlentake]

lemma sigApply_of_not_contains {t k v : List Char}
    (hc : containsSub t k = false) : sigApply k v t = t := by
  rw [sigApply, if_neg (by rw [hc]; simp)]

end SigApplyLemmas

/-- C6: the Value Injector visits every paragraph, including all nested
table-cell paragraphs, applying the same per-paragraph rewrite to each
(first conjunct); a bracket-map entry replaces every occurrence of its key
(the rewritten text is the key-split of the paragraph joined with the input,
and no split part contains the key: second conjunct); a sig-map entry
appends `' ' ++ input` after the last (rightmost) occurrence of its key,
leaving all text before that occurrence unchanged (third conjunct).  Fields
whose stripped `input` is empty contribute no map entry (see C10). -/
theorem claim_C6 (doc : Container) (ps : List Field) :
    (deepTexts (fill_docx_placeholders doc ps) =
      (deepTexts doc).map (paraFill (buildMaps ps).1 (buildMaps ps).2)) ∧
    (∀ t k v : List Char, k ≠ [] →
      (containsSub t k = true → bracketApply k v t = pyReplace (t.length + 1) t k v) ∧
      pyReplace (t.length + 1) t k v =
        List.intercalate v (pySplit (t.length + 1) t k) ∧
      List.intercalate k (pySplit (t.length + 1) t k) = t ∧
      (∀ part ∈ pySplit (t.length + 1) t k, ¬ k <:+: part)) ∧
    (∀ t k v : List Char, k ≠ [] →
      (containsSub t k = true →
        ∃ pre suf, t = pre ++ k ++ suf ∧
          (∀ pre2 suf2, t = pre2 ++ k ++ suf2 → pre2.length ≤ pre.length) ∧
          sigApply k v t = pre ++ k ++ ' ' :: v) ∧
      (containsSub t k = false → sigApply k v t = t)) := by
  refine ⟨?_, ?_, ?_⟩
  · unfold fill_docx_placeholders
    exact deepTexts_fill (buildMaps ps).1 (buildMaps ps).2 doc
  · intro t k v hk
    refine ⟨?_, ?_, ?_, ?_⟩
    · intro hc
      rw [bracketApply, if_pos hc]
    · exact pyReplace_eq_intercalate (t.length + 1) t k v hk (by omega)
    · exact intercalate_pySplit (t.length + 1) t k hk (by omega)
    · exact pySplit_no_key (t.length + 1) t k hk (by omega)
  · intro t k v hk
    exact ⟨fun hc => sigApply_of_contains hk hc,
      fun hc => sigApply_of_not_contains hc⟩

/-- C6 witness: the signature-append conjunct instantiated on the paragraph
text `"x Sig: \t"` with key `"Sig:"` and input `"Bob"`. -/
theorem claim_C6_witness :
    ∃ pre suf, ("x Sig: \t".data : List Char) = pre ++ "Sig:".data ++ suf ∧
      (∀ pre2 suf2, ("x Sig: \t".data : List Char) = pre2 ++ "Sig:".data ++ suf2 →
        pre2.length ≤ pre.length) ∧
      sigApply "Sig:".data "Bob".data "x Sig: \t".data =
        pre ++ "Sig:".data ++ ' ' :: "Bob".data :=
  ((claim_C6 (Container.mk [] Tables.nil) []).2.2 "x Sig: \t".data "Sig:".data
    "Bob".data (by decide)).1 (by decide)

section C10Lemmas

lemma buildMapsStep_skip {acc : List (List Char × List Char) ×
    List (List Char × List Char)} {f : Field}
    (hv : stripPy (f.input.getD []) = []) : buildMapsStep acc f = acc := by
  rw [buildMapsStep]
  simp [hv]

lemma foldl_buildMapsStep_filter : ∀ (ps : List Field) (acc : _ × _),
    ps.foldl buildMapsStep acc =
      (ps.filter fun f => ¬ stripPy (f.input.getD []) = []).foldl
        buildMapsStep acc := by
  intro ps
  induction ps with
  | nil => intro acc; rfl
  | cons f fs ih =>
    intro acc
    rw [List.foldl_cons, List.filter_cons]
    by_cases hv : stripPy (f.input.getD []) = []
    · rw [buildMapsStep_skip hv, if_neg (by simpa using hv)]
      exact ih acc
    · rw [if_pos (by simpa using hv), List.foldl_cons]
      exact ih (buildMapsStep acc f)

lemma paraFill_nil (t : List Char) : paraFill [] [] t = t := rfl

lemma Para_eta (p : Para) :
    ({ p with text := p.text } : Para) = p := by cases p; rfl

mutual
theorem fillContainer_empty : ∀ (c : Container), fillContainer [] [] c = c
  | .mk ps ts => by
    rw [fillContainer_mk, fillTables_empty ts]
    have he : (fun p : Para => { p with text := paraFill [] [] p.text }) =
        fun p => p := funext fun p => by cases p; rfl
    rw [he, List.map_id']
theorem fillTables_empty : ∀ (ts : Tables), fillTables [] [] ts = ts
  | .nil => rfl
  | .cons rows rest => by
    show Tables.cons (fillRows [] [] rows) (fillTables [] [] rest) = _
    rw [fillRows_empty rows, fillTables_empty rest]
theorem fillRows_empty : ∀ (rows : Rows), fillRows [] [] rows = rows
  | .nil => rfl
  | .cons cells rest => by
    show Rows.cons (fillCells [] [] cells) (fillRows [] [] rest) = _
    rw [fillCells_empty cells, fillRows_empty rest]
theorem fillCells_empty : ∀ (cells : Cells), fillCells [] [] cells = cells
  | .nil => rfl
  | .cons c rest => by
    show Cells.cons (fillContainer [] [] c) (fillCells [] [] rest) = _
    rw [fillContainer_empty c, fillCells_empty rest]
end

end C10Lemmas

/-- C10: a field whose `input` is missing, empty, or whitespace-only
contributes no entry to the Value Injector's replacement maps — the maps and
the filled document are the same as with such fields removed; if every
field's input is whitespace-only the filled document is the original,
unchanged. -/
theorem claim_C10 (doc : Container) (ps : List Field) :
    buildMaps ps =
      buildMaps (ps.filter fun f => ¬ stripPy (f.input.getD []) = []) ∧
    fill_docx_placeholders doc ps =
      fill_docx_placeholders doc
        (ps.filter fun f => ¬ stripPy (f.input.getD []) = []) ∧
    ((∀ f ∈ ps, stripPy (f.input.getD []) = []) →
      fill_docx_placeholders doc ps = doc) := by
  have h1 : buildMaps ps =
      buildMaps (ps.filter fun f => ¬ stripPy (f.input.getD []) = []) :=
    foldl_buildMapsStep_filter ps ([], [])
  refine ⟨h1, ?_, ?_⟩
  · unfold fill_docx_placeholders
    rw [h1]
  · intro hall
    have hfil : (ps.filter fun f => ¬ stripPy (f.input.getD []) = []) = [] := by
      rw [List.filter_eq_nil_iff]
      intro f hf
      simpa using hall f hf
    unfold fill_docx_placeholders
    rw [h1, hfil]
    show fillContainer (buildMaps []).1 (buildMaps []).2 doc = doc
    exact fillContainer_empty doc

/-- C10 witness: a whitespace-only input contributes nothing — instantiated
on a one-paragraph document with a single whitespace-input field. -/
theorem claim_C10_witness :
    fill_docx_placeholders (Container.mk [{ text := "a [X] b".data }] Tables.nil)
      [{ ftype := .bracketed, value := "[X]".data, input := some " \t ".data }] =
      Container.mk [{ text := "a [X] b".data }] Tables.nil :=
  (claim_C10 (Container.mk [{ text := "a [X] b".data }] Tables.nil)
    [{ ftype := .bracketed, value := "[X]".data,
       input := some " \t ".data }]).2.2 (by decide)

section C8Lemmas

lemma alookup_nil {α : Type} (k : List Char) :
    alookup ([] : List (List Char × α)) k = none := rfl

lemma filterMap_const_none {α β : Type} :
    ∀ (l : List α), l.filterMap (fun _ => (none : Option β)) = [] := by
  intro l
  induction l with
  | nil => rfl
  | cons x xs ih => rw [List.filterMap_cons]; exact ih

end C8Lemmas

/-- C8: when the hint generator produces an empty mapping (missing API key,
or a failed/malformed model call, modelled as empty response `data`), the
upload path's attachment loop still completes, the guidance mapping is
empty, and every field's `hint`, `hint_long`, `demo_value` are the empty
string with all other keys untouched. -/
theorem claim_C8 (api_key : Option (List Char))
    (data : List (List Char × RawEntry)) (ps : List Field)
    (h : api_key = none ∨ data = []) :
    generate_field_guidance api_key data ps = [] ∧
    attachGuidance (generate_field_guidance api_key data ps) ps =
      ps.map fun p => { p with hint := [], hint_long := [], demo_value := [] } := by
  have hg : generate_field_guidance api_key data ps = [] := by
    rcases h with rfl | rfl
    · rfl
    · unfold generate_field_guidance
      by_cases hk : api_key.isNone
      · rw [if_pos hk]
      · rw [if_neg hk]
        have he1 : (fun p : Field => guidanceEntry [] p p.id) =
            fun _ => none := rfl
        have he2 : (fun ip : Nat × Field =>
            guidanceEntry [] ip.2 (Nat.repr (ip.1 + 1)).data) =
            fun _ => none := rfl
        simp only [he1, he2, filterMap_const_none]
        simp
  refine ⟨hg, ?_⟩
  rw [hg]
  unfold attachGuidance
  exact List.map_congr_left fun p _ => by rw [alookup_nil]; rfl

/-- C8 witness: instantiated with a missing API key and one field. -/
theorem claim_C8_witness :
    generate_field_guidance none []
      ([{ ftype := .bracketed, value := "[X]".data, id := "bracketed@L1@0".data,
          hint := "old".data }] : List Field) = [] ∧
    attachGuidance (generate_field_guidance none []
      ([{ ftype := .bracketed, value := "[X]".data, id := "bracketed@L1@0".data,
          hint := "old".data }] : List Field))
      ([{ ftype := .bracketed, value := "[X]".data, id := "bracketed@L1@0".data,
          hint := "old".data }] : List Field) =
      ([{ ftype := .bracketed, value := "[X]".data, id := "bracketed@L1@0".data,
          hint := "old".data }] : List Field).map
        (fun p => { p with hint := [], hint_long := [], demo_value := [] }) :=
  claim_C8 none []
    ([{ ftype := .bracketed, value := "[X]".data, id := "bracketed@L1@0".data,
        hint := "old".data }] : List Field) (Or.inl rfl)

/-! ## C5: the per-label counter of the HTML aligner -/

section C5Lemmas

lemma sigScan_zero (label l : List Char) (pos : Nat) :
    sigScan 0 label l pos = [] := rfl

lemma sigScan_succ (fuel : Nat) (label l : List Char) (pos : Nat) :
    sigScan (fuel + 1) label l pos =
      match sigMatchAt label l with
      | some n => (pos, pos + n) :: sigScan fuel label (l.drop n) (pos + n)
      | none =>
        match l with
        | [] => []
        | _ :: t => sigScan fuel label t (pos + 1) := rfl

lemma sigPadLen_succ (fuel : Nat) (l : List Char) :
    sigPadLen (fuel + 1) l =
      match tagLen l with
      | some t => t + sigPadLen fuel (l.drop t)
      | none =>
        match l with
        | c :: rest => if isPySpace c then 1 + sigPadLen fuel rest else 0
        | [] => 0 := rfl

lemma tagLen_bounds {l : List Char} {t : Nat} (h : tagLen l = some t) :
    1 ≤ t ∧ t ≤ l.length := by
  unfold tagLen at h
  split at h
  · rename_i rest
    simp only at h
    split at h
    · rename_i hcond
      injection h with h
      have hk := (List.get?_eq_some.mp hcond.2).1
      simp only [List.length_cons]
      omega
    · exact absurd h (by simp)
  · exact absurd h (by simp)

lemma sigPadLen_le : ∀ (fuel : Nat) (l : List Char),
    sigPadLen fuel l ≤ l.length := by
  intro fuel
  induction fuel with
  | zero => intro l; simp [sigPadLen]
  | succ fuel ih =>
    intro l
    rw [sigPadLen_succ]
    rcases ht : tagLen l with _ | t
    · rcases l with _ | ⟨c, rest⟩
      · simp
      · show (if isPySpace c then 1 + sigPadLen fuel rest else 0) ≤ _
        by_cases hc : isPySpace c
        · rw [if_pos hc]
          have := ih rest
          simp only [List.length_cons]
          omega
        · rw [if_neg hc]
          omega
    · show t + sigPadLen fuel (l.drop t) ≤ l.length
      obtain ⟨ht1, ht2⟩ := tagLen_bounds ht
      have := ih (l.drop t)
      rw [List.length_drop] at this
      omega

lemma sigMatchAt_some {label l : List Char} {n : Nat}
    (h : sigMatchAt label l = some n) :
    (label ++ [':']).isPrefixOf l = true ∧ label.length + 1 < n ∧
      n ≤ l.length := by
  simp only [sigMatchAt] at h
  split at h
  · rename_i hpre
    split at h
    · rename_i hpad
      injection h with h
      obtain ⟨hdec, hlen⟩ := of_isPrefixOf hpre
      have hP := sigPadLen_le (l.drop (label.length + 1)).length
        (l.drop (label.length + 1))
      have hdl : (l.drop (label.length + 1)).length =
          l.length - (label.length + 1) := List.length_drop _ _
      have hlab : (label ++ [':']).length = label.length + 1 := by simp
      refine ⟨hpre, ?_, ?_⟩ <;> omega
    · exact absurd h (by simp)
  · exact absurd h (by simp)

lemma sigScan_mem : ∀ (fuel : Nat) (label l : List Char) (pos : Nat)
    (se : Nat × Nat), se ∈ sigScan fuel label l pos →
    pos ≤ se.1 ∧ ∃ n, sigMatchAt label (l.drop (se.1 - pos)) = some n ∧
      se.2 = se.1 + n := by
  intro fuel
  induction fuel with
  | zero => simp [sigScan_zero]
  | succ fuel ih =>
    intro label l pos se hmem
    rw [sigScan_succ] at hmem
    rcases hM : sigMatchAt label l with _ | n <;> rw [hM] at hmem
    · rcases l with _ | ⟨c, t⟩
      · simp at hmem
      · obtain ⟨h1, n', h2, h3⟩ := ih label t (pos + 1) se hmem
        refine ⟨by omega, n', ?_, h3⟩
        have e : se.1 - pos = (se.1 - (pos + 1)) + 1 := by omega
        rw [e, List.drop_succ_cons]
        exact h2
    · rcases List.mem_cons.mp hmem with rfl | hmem
      · exact ⟨Nat.le_refl _, n, by simpa using hM, rfl⟩
      · obtain ⟨h1, n', h2, h3⟩ := ih label (l.drop n) (pos + n) se hmem
        refine ⟨by omega, n', ?_, h3⟩
        rw [List.drop_drop] at h2
        have e : n + (se.1 - (pos + n)) = se.1 - pos := by omega
        rwa [e] at h2

/-- Soundness of the signature-pattern matches: each spans at least one
padding character after `label:`, stays inside the HTML, and starts with
the literal `label ++ ":"`. -/
lemma sigMatches_mem {label html : List Char} {se : Nat × Nat}
    (h : se ∈ sigMatches label html) :
    se.1 + label.length + 1 < se.2 ∧ se.2 ≤ html.length ∧
    pySlice html se.1 (se.1 + label.length + 1) = label ++ [':'] := by
  obtain ⟨h0, n, hm, he⟩ := sigScan_mem html.length label html 0 se h
  simp only [Nat.sub_zero] at hm
  obtain ⟨hpre, hlt, hle⟩ := sigMatchAt_some hm
  rw [List.length_drop] at hle
  refine ⟨by omega, by omega, ?_⟩
  obtain ⟨hdec, hlen⟩ := of_isPrefixOf hpre
  have hlab : (label ++ [':']).length = label.length + 1 := by simp
  unfold pySlice
  have e : se.1 + label.length + 1 - se.1 = (label ++ [':']).length := by
    rw [hlab]; omega
  rw [e, hdec]
  exact List.take_left _ _

/-- Definitional unfolding of the signature branch of `alignStep`. -/
lemma alignStep_sig (st : AlignState) (f : Field)
    (hf : f.ftype = .signature_line)
    (counts0 : List (List Char × Nat)) (c : Nat) (ms : List (Nat × Nat))
    (hc0 : counts0 = if (alookup st.counts f.label).isSome then st.counts
      else st.counts ++ [(f.label, 0)])
    (hc : c = (alookup counts0 f.label).getD 0)
    (hms : ms = sigMatches f.label st.html) :
    alignStep st f =
      if c < ms.length then
        { html := st.html.take (ms.getD c (0, 0)).1
            ++ pySlice st.html (ms.getD c (0, 0)).1
                ((ms.getD c (0, 0)).1 + f.label.length + 1)
            ++ ' ' :: markerOf f ++ st.html.drop (ms.getD c (0, 0)).2
          counts := upsert counts0 f.label (c + 1) }
      else { st with counts := counts0 } := by
  subst hc
  subst hc0
  subst hms
  unfold alignStep
  rw [hf]

end C5Lemmas

/-- C5 counterexample: the aligner recomputes the match list against the
*evolving* HTML, so one original match can be consumed by two different
signature fields.  In `"Sig:[X] Sig: \t"` there is exactly one match of the
`Sig:`-plus-padding pattern.  Processed alone, field A receives its marker;
but in the list A, B, C the bracket replacement for B creates a fresh
`Sig:`-before-a-tag match in front of the already-consumed one, so field C
(counter 1) consumes the *same* original occurrence again, destroying A's
marker: the final HTML contains C's marker but no longer contains A's. -/
theorem claim_C5_counterexample :
    (sigMatches "Sig".data "Sig:[X] Sig: \t".data).length = 1 ∧
    containsSub
      (create_marked_html "Sig:[X] Sig: \t".data
        [{ ftype := .signature_line, label := "Sig".data, start := 0,
           id := "A".data }])
      (markerOf { ftype := .signature_line, label := "Sig".data, start := 0,
                  id := "A".data }) = true ∧
    containsSub
      (create_marked_html "Sig:[X] Sig: \t".data
        [{ ftype := .signature_line, label := "Sig".data, start := 0,
           id := "A".data },
         { ftype := .bracketed, value := "[X]".data, start := 5,
           id := "B".data },
         { ftype := .signature_line, label := "Sig".data, start := 10,
           id := "C".data }])
      (markerOf { ftype := .signature_line, label := "Sig".data, start := 0,
                  id := "A".data }) = false ∧
    containsSub
      (create_marked_html "Sig:[X] Sig: \t".data
        [{ ftype := .signature_line, label := "Sig".data, start := 0,
           id := "A".data },
         { ftype := .bracketed, value := "[X]".data, start := 5,
           id := "B".data },
         { ftype := .signature_line, label := "Sig".data, start := 10,
           id := "C".data }])
      (markerOf { ftype := .signature_line, label := "Sig".data, start := 10,
                  id := "C".data }) = true := by
  decide

/-- C5 (amended): during HTML alignment, a signature field with label L is
aligned to the n-th match of the pattern `L:` followed by whitespace/tags in
the *current* (already partially marked) HTML, where n is the per-label
occurrence counter; every such match starts with the literal `L:`, has at
least one padding character, and lies inside the HTML; on a hit the HTML is
rewritten around that match (label and colon kept, padding replaced by
`' '` plus the marker) and the counter is incremented; a field whose counter
is not below the number of current matches receives no marker, changes the
HTML in no way, and raises no exception.  (Matches are recomputed against
the evolving HTML, so across fields an original-document match may be
consumed more than once — see the counterexample.) -/
theorem claim_C5_amended (st : AlignState) (f : Field)
    (hf : f.ftype = .signature_line)
    (counts0 : List (List Char × Nat)) (c : Nat) (ms : List (Nat × Nat))
    (hc0 : counts0 = if (alookup st.counts f.label).isSome then st.counts
      else st.counts ++ [(f.label, 0)])
    (hc : c = (alookup counts0 f.label).getD 0)
    (hms : ms = sigMatches f.label st.html) :
    (∀ se ∈ ms, se.1 + f.label.length + 1 < se.2 ∧ se.2 ≤ st.html.length ∧
      pySlice st.html se.1 (se.1 + f.label.length + 1) = f.label ++ [':']) ∧
    (c < ms.length →
      alignStep st f =
        { html := st.html.take (ms.getD c (0, 0)).1
            ++ f.label ++ ':' :: ' ' :: markerOf f
            ++ st.html.drop (ms.getD c (0, 0)).2
          counts := upsert counts0 f.label (c + 1) }) ∧
    (ms.length ≤ c → alignStep st f = { st with counts := counts0 }) := by
  have hstep := alignStep_sig st f hf counts0 c ms hc0 hc hms
  refine ⟨?_, ?_, ?_⟩
  · intro se hse
    rw [hms] at hse
    exact sigMatches_mem hse
  · intro hlt
    rw [hstep, if_pos hlt]
    have hse : ms.getD c (0, 0) ∈ ms := by
      rw [List.getD_eq_getElem ms (0, 0) hlt]
      exact List.getElem_mem hlt
    have hse' : ms.getD c (0, 0) ∈ sigMatches f.label st.html := by
      rw [← hms]
      exact hse
    obtain ⟨-, -, hslice⟩ := sigMatches_mem hse'
    rw [hslice]
    simp [List.append_assoc]
  · intro hge
    rw [hstep, if_neg (Nat.not_lt.mpr hge)]

/-- C5 amended, instantiated: one `By:`-plus-padding match in
`"By: \t x"`, consumed by a single field with counter 0. -/
theorem claim_C5_amended_witness :
    (∀ se ∈ [((0 : Nat), (6 : Nat))],
      se.1 + "By".data.length + 1 < se.2 ∧ se.2 ≤ "By: \t x".data.length ∧
      pySlice "By: \t x".data se.1 (se.1 + "By".data.length + 1) =
        "By".data ++ [':']) ∧
    (0 < [((0 : Nat), (6 : Nat))].length →
      alignStep ⟨"By: \t x".data, []⟩
          { ftype := .signature_line, label := "By".data, id := "Z".data } =
        { html := "By: \t x".data.take 0 ++ "By".data ++ ':' :: ' ' ::
            markerOf { ftype := .signature_line, label := "By".data,
                       id := "Z".data }
            ++ "By: \t x".data.drop 6
          counts := upsert [("By".data, 0)] "By".data 1 }) ∧
    ([((0 : Nat), (6 : Nat))].length ≤ 0 →
      alignStep ⟨"By: \t x".data, []⟩
          { ftype := .signature_line, label := "By".data, id := "Z".data } =
        { html := "By: \t x".data, counts := [("By".data, 0)] }) :=
  claim_C5_amended ⟨"By: \t x".data, []⟩
    { ftype := .signature_line, label := "By".data, id := "Z".data }
    rfl [("By".data, 0)] 0 [((0 : Nat), (6 : Nat))]
    (by decide) (by decide) (by decide)

/-! ## C7: round-trip of injection and re-detection -/

section C7Lemmas

lemma replaceSites_zero (t k v : List Char) : replaceSites 0 t k v = [] := rfl

lemma replaceSites_succ (fuel : Nat) (t k v : List Char) :
    replaceSites (fuel + 1) t k v =
      if k = [] then []
      else if k.isPrefixOf t then
        0 :: (replaceSites fuel (t.drop k.length) k v).map (· + v.length)
      else match t with
        | [] => []
        | _ :: rest => (replaceSites fuel rest k v).map (· + 1) := rfl

lemma replaceSites_contains : ∀ (fuel : Nat) (t k v : List Char) (s : Nat),
    s ∈ replaceSites fuel t k v → containsSub t k = true := by
  intro fuel
  induction fuel with
  | zero => simp [replaceSites_zero]
  | succ fuel ih =>
    intro t k v s hs
    rw [replaceSites_succ] at hs
    by_cases hk : k = []
    · rw [if_pos hk] at hs
      simp at hs
    · rw [if_neg hk] at hs
      by_cases hpre : k.isPrefixOf t
      · rcases t with _ | ⟨c, rest⟩
        · obtain ⟨hd, -⟩ := of_isPrefixOf hpre
          exact absurd (List.append_eq_nil.mp hd.symm).1 hk
        · simp [containsSub, hpre]
      · rw [if_neg hpre] at hs
        rcases t with _ | ⟨c, rest⟩
        · simp at hs
        · obtain ⟨s', hs', -⟩ := List.mem_map.mp hs
          simp [containsSub, ih rest k v s' hs']

/-- Every site recorded by `replaceSites` carries a copy of `v` in the
output of `pyReplace`. -/
lemma replaceSites_sound : ∀ (fuel : Nat) (t k v : List Char) (s : Nat),
    s ∈ replaceSites fuel t k v →
    v.isPrefixOf ((pyReplace fuel t k v).drop s) = true := by
  intro fuel
  induction fuel with
  | zero => simp [replaceSites_zero]
  | succ fuel ih =>
    intro t k v s hs
    rw [replaceSites_succ] at hs
    by_cases hk : k = []
    · rw [if_pos hk] at hs
      simp at hs
    · rw [if_neg hk] at hs
      by_cases hpre : k.isPrefixOf t
      · rw [if_pos hpre] at hs
        rw [pyReplace_pre fuel t k v hk hpre]
        rcases List.mem_cons.mp hs with rfl | hs'
        · rw [List.drop_zero, List.isPrefixOf_iff_prefix]
          exact List.prefix_append v _
        · obtain ⟨s', hs'', rfl⟩ := List.mem_map.mp hs'
          rw [Nat.add_comm s' v.length, List.drop_append]
          exact ih (t.drop k.length) k v s' hs''
      · rw [if_neg hpre] at hs
        rcases t with _ | ⟨c, rest⟩
        · simp at hs
        · rw [pyReplace_cons fuel c rest k v hk hpre]
          obtain ⟨s', hs'', rfl⟩ := List.mem_map.mp hs
          rw [List.drop_succ_cons]
          exact ih rest k v s' hs''

lemma fillContainer_paras (bm sm : List (List Char × List Char))
    (c : Container) :
    (fillContainer bm sm c).paras =
      c.paras.map fun p => { p with text := paraFill bm sm p.text } := by
  cases c
  rfl

lemma cellsParas_fill (bm sm : List (List Char × List Char)) :
    ∀ (cells : Cells), cellsParas (fillCells bm sm cells) =
      (cellsParas cells).map fun p => { p with text := paraFill bm sm p.text }
  | .nil => rfl
  | .cons c rest => by
    show (fillContainer bm sm c).paras ++ cellsParas (fillCells bm sm rest) = _
    rw [fillContainer_paras, cellsParas_fill bm sm rest,
      ← List.map_append]
    rfl

lemma rowsParas_fill (bm sm : List (List Char × List Char)) :
    ∀ (rows : Rows), rowsParas (fillRows bm sm rows) =
      (rowsParas rows).map fun p => { p with text := paraFill bm sm p.text }
  | .nil => rfl
  | .cons cs rest => by
    show cellsParas (fillCells bm sm cs) ++ rowsParas (fillRows bm sm rest) = _
    rw [cellsParas_fill, rowsParas_fill bm sm rest, ← List.map_append]
    rfl

lemma tablesParas_fill (bm sm : List (List Char × List Char)) :
    ∀ (ts : Tables), tablesParas (fillTables bm sm ts) =
      (tablesParas ts).map fun p => { p with text := paraFill bm sm p.text }
  | .nil => rfl
  | .cons rows rest => by
    show rowsParas (fillRows bm sm rows)
        ++ tablesParas (fillTables bm sm rest) = _
    rw [rowsParas_fill, tablesParas_fill bm sm rest, ← List.map_append]
    rfl

/-- The *shallow* paragraph flattening used by the detector commutes with
the fill walk: the filled document's paragraph list is the original one
with every text rewritten by `paraFill`. -/
lemma allParagraphs_fill (bm sm : List (List Char × List Char))
    (doc : Container) :
    allParagraphs (fillContainer bm sm doc) =
      (allParagraphs doc).map fun p => { p with text := paraFill bm sm p.text } := by
  cases doc with
  | mk ps ts =>
    rw [fillContainer_mk]
    show ps.map _ ++ tablesParas (fillTables bm sm ts) = _
    rw [tablesParas_fill]
    show _ = (ps ++ tablesParas ts).map _
    rw [List.map_append]

lemma buildMaps_single (f : Field) (v : List Char)
    (hty : f.ftype = .bracketed) (hvs : stripPy v ≠ []) :
    buildMaps [{ f with input := some v }] = ([(f.value, stripPy v)], []) := by
  simp [buildMaps, buildMapsStep, upsert, hvs, hty]

lemma head?_of_prefix {u L : List Char} (h : u <+: L) (hne : u ≠ []) :
    L.head? = u.head? := by
  obtain ⟨w, rfl⟩ := h
  rcases u with _ | ⟨a, u'⟩
  · exact absurd rfl hne
  · rfl

/-- Every bracketed field the detector reports carries a non-empty token
that starts with `'['` or `'$'` and sits literally at its `start` offset in
the flattened full text. -/
lemma detect_bracket_value {doc : Container} {f : Field}
    (hf : f ∈ detect_placeholders doc) (hty : f.ftype = .bracketed) :
    f.value ≠ [] ∧ (f.value.head? = some '[' ∨ f.value.head? = some '$') ∧
      f.value <+: (fullTextOf doc).drop f.start := by
  obtain ⟨g, hg, i0, rfl⟩ := mem_detect_placeholders hf
  rcases hg with hgb | hgs
  · obtain ⟨hbt, -, n, hm, hstop, hval⟩ := mem_detect_bracketed hgb
    obtain ⟨d, w1, core, w2, hdec, hd, -, hcore, -, -, -, -⟩ :=
      matchAt_decomp _ n hm
    have hval' : g.value = ((fullTextOf doc).drop g.start).take n := by
      rw [hval, hstop]
      unfold pySlice
      congr 1
      omega
    refine ⟨?_, ?_, ?_⟩
    · show g.value ≠ []
      rw [hval', hdec]
      rcases hd with rfl | rfl <;> simp
    · show g.value.head? = some '[' ∨ g.value.head? = some '$'
      rw [hval', hdec]
      rcases hd with rfl | rfl
      · left
        rfl
      · right
        rfl
    · show g.value <+: (fullTextOf doc).drop g.start
      rw [hval']
      exact List.take_prefix n _
  · obtain ⟨i1, -, hsig⟩ := mem_detect_signature_lines hgs
    obtain ⟨cp, -, -, -, -, hft, -⟩ := sigOfPara_some hsig
    have hty' : g.ftype = FieldType.bracketed := hty
    rw [hft] at hty'
    exact absurd hty' (by simp)

end C7Lemmas

/-- C7 counterexample: re-running detection on the filled document *can*
re-detect the same bracket token at the same position.  (1) Filling the
token `[X]` of `"a [X] b"` with the input `"[X] done"` yields
`"a [X] done b"`, where detection again reports value `[X]` at start 2.
(2) A token spanning a paragraph boundary (value `"[\nq]"` over paragraphs
`"p ["` / `"q] r"`) is never replaced at all — the per-paragraph
`str.replace` cannot see it — so the paragraph texts are unchanged and the
very same field is re-detected at start 2. -/
theorem claim_C7_counterexample :
    ({ ftype := .bracketed, value := "[X]".data, start := 2, stop := 5,
       line := 1, id := "bracketed@L1@0".data } : Field) ∈
      detect_placeholders (.mk [{ text := "a [X] b".data }] .nil) ∧
    (∃ g ∈ detect_placeholders (fill_docx_placeholders
        (.mk [{ text := "a [X] b".data }] .nil)
        [{ ftype := .bracketed, value := "[X]".data, start := 2, stop := 5,
           line := 1, id := "bracketed@L1@0".data,
           input := some "[X] done".data }]),
      g.ftype = .bracketed ∧ g.value = "[X]".data ∧ g.start = 2) ∧
    ({ ftype := .bracketed, value := "[\nq]".data, start := 2, stop := 6,
       line := 1, id := "bracketed@L1@0".data } : Field) ∈
      detect_placeholders
        (.mk [{ text := "p [".data }, { text := "q] r".data }] .nil) ∧
    (allParagraphs (fill_docx_placeholders
        (.mk [{ text := "p [".data }, { text := "q] r".data }] .nil)
        [{ ftype := .bracketed, value := "[\nq]".data, start := 2, stop := 6,
           line := 1, id := "bracketed@L1@0".data,
           input := some "VAL".data }])).map Para.text =
      ["p [".data, "q] r".data] ∧
    (∃ g ∈ detect_placeholders (fill_docx_placeholders
        (.mk [{ text := "p [".data }, { text := "q] r".data }] .nil)
        [{ ftype := .bracketed, value := "[\nq]".data, start := 2, stop := 6,
           line := 1, id := "bracketed@L1@0".data,
           input := some "VAL".data }]),
      g.ftype = .bracketed ∧ g.value = "[\nq]".data ∧ g.start = 2) := by
  decide

/-- C7 (amended): injecting a non-blank value that contains neither `'['`
nor `'$'` into a detected bracketed field removes the token at every
replacement site: at each position (paragraph `i`, offset `s`) where the
injector wrote a copy of the stripped input into paragraph `i`'s text,
re-running detection on the filled document reports no bracketed field with
the same token starting at the corresponding full-text position.  (Without
the proviso on the input, and for tokens spanning paragraph boundaries, the
round-trip fails — see the counterexample.) -/
theorem claim_C7_amended (doc : Container) (f : Field) (v : List Char)
    (hf : f ∈ detect_placeholders doc) (hty : f.ftype = .bracketed)
    (hvs : stripPy v ≠ []) (hlb : '[' ∉ stripPy v) (hdl : '$' ∉ stripPy v)
    (i s : Nat)
    (hs : s ∈ replaceSites
        ((((allParagraphs doc).map Para.text).getD i []).length + 1)
        (((allParagraphs doc).map Para.text).getD i []) f.value (stripPy v))
    (g : Field)
    (hg : g ∈ detect_placeholders
        (fill_docx_placeholders doc [{ f with input := some v }]))
    (hgty : g.ftype = .bracketed) (hgval : g.value = f.value) :
    g.start ≠ (build_offsets ((allParagraphs
        (fill_docx_placeholders doc [{ f with input := some v }])).map
          Para.text)).getD i 0 + s := by
  intro hstart
  obtain ⟨hfne, hfhead, -⟩ := detect_bracket_value hf hty
  set texts := (allParagraphs doc).map Para.text with htexts
  set t := texts.getD i [] with ht
  have hmaps := buildMaps_single f v hty hvs
  have hfill : fill_docx_placeholders doc [{ f with input := some v }] =
      fillContainer [(f.value, stripPy v)] [] doc := by
    simp only [fill_docx_placeholders, hmaps]
  have hcont : containsSub t f.value = true :=
    replaceSites_contains _ _ _ _ _ hs
  have hi : i < texts.length := by
    by_contra hni
    rw [List.getD_eq_default _ _ (Nat.le_of_not_lt hni)] at ht
    rw [ht] at hcont
    rw [show containsSub [] f.value = f.value.isEmpty from rfl] at hcont
    exact hfne (List.isEmpty_iff.mp hcont)
  have htexts' : (allParagraphs (fill_docx_placeholders doc
      [{ f with input := some v }])).map Para.text =
      texts.map fun u => paraFill [(f.value, stripPy v)] [] u := by
    rw [hfill, allParagraphs_fill, htexts, List.map_map, List.map_map]
    rfl
  have ht' : ((allParagraphs (fill_docx_placeholders doc
      [{ f with input := some v }])).map Para.text).getD i [] =
      paraFill [(f.value, stripPy v)] [] t := by
    rw [htexts',
      List.getD_eq_getElem _ _ (by rw [List.length_map]; exact hi),
      List.getElem_map, ht, List.getD_eq_getElem texts [] hi]
  have hpf : paraFill [(f.value, stripPy v)] [] t =
      pyReplace (t.length + 1) t f.value (stripPy v) := by
    show bracketApply f.value (stripPy v) t = _
    unfold bracketApply
    rw [if_pos hcont]
  have hvpre : (stripPy v).isPrefixOf
      ((pyReplace (t.length + 1) t f.value (stripPy v)).drop s) = true :=
    replaceSites_sound _ _ _ _ _ hs
  have hsle : s ≤ (pyReplace (t.length + 1) t f.value (stripPy v)).length := by
    by_contra hgt
    rw [List.drop_eq_nil_of_le (Nat.le_of_lt (Nat.lt_of_not_le hgt))] at hvpre
    obtain ⟨hd, -⟩ := of_isPrefixOf hvpre
    exact hvs (List.append_eq_nil.mp hd.symm).1
  obtain ⟨suf, hdropfull, -⟩ := joinNl_drop
    ((allParagraphs (fill_docx_placeholders doc
      [{ f with input := some v }])).map Para.text) i
    (by rw [htexts', List.length_map]; exact hi) s
    (by rw [ht', hpf]; exact hsle)
  rw [ht', hpf] at hdropfull
  obtain ⟨hgne, hghead, hgpre⟩ := detect_bracket_value hg hgty
  rw [hgval, hstart] at hgpre
  unfold fullTextOf at hgpre
  rw [hdropfull] at hgpre
  have hvpre' : stripPy v <+:
      (pyReplace (t.length + 1) t f.value (stripPy v)).drop s ++ suf :=
    (List.isPrefixOf_iff_prefix.mp hvpre).trans (List.prefix_append _ _)
  have h1 := head?_of_prefix hgpre hfne
  have h2 := head?_of_prefix hvpre' hvs
  have hheads : f.value.head? = (stripPy v).head? := by rw [← h1, h2]
  rcases hv : stripPy v with _ | ⟨a, vrest⟩
  · exact hvs hv
  · rw [hv] at hheads
    rcases hfhead with hfh | hfh <;> rw [hfh] at hheads <;>
      injection hheads with hheads
    · rw [hv] at hlb
      exact hlb (hheads ▸ List.mem_cons_self a vrest)
    · rw [hv] at hdl
      exact hdl (hheads ▸ List.mem_cons_self a vrest)

/-- C7 amended, instantiated: the token `"[\nX]"` is detected at start 2
(inside paragraph 0, which contains it literally) and also spans the
boundary of paragraphs 1 and 2; filling it with `"Bob"` rewrites paragraph
0 at site 2, and the re-detected surviving cross-paragraph occurrence
starts at 10, not at the replacement site 0 + 2. -/
theorem claim_C7_amended_witness :
    ({ ftype := .bracketed, value := "[\nX]".data, start := 2, stop := 6,
       line := 1, id := "bracketed@L1@0".data } : Field) ∈
      detect_placeholders (.mk [{ text := "z [\nX] w".data },
        { text := "q [".data }, { text := "X] r".data }] .nil) ∧
    stripPy "Bob".data ≠ [] ∧
    (2 : Nat) ∈ replaceSites
      ((((allParagraphs (Container.mk [{ text := "z [\nX] w".data },
          { text := "q [".data }, { text := "X] r".data }]
          .nil)).map Para.text).getD 0 []).length + 1)
      (((allParagraphs (Container.mk [{ text := "z [\nX] w".data },
          { text := "q [".data }, { text := "X] r".data }]
          .nil)).map Para.text).getD 0 [])
      "[\nX]".data (stripPy "Bob".data) ∧
    ({ ftype := .bracketed, value := "[\nX]".data, start := 10, stop := 14,
       line := 2, id := "bracketed@L2@0".data } : Field) ∈
      detect_placeholders (fill_docx_placeholders
        (.mk [{ text := "z [\nX] w".data }, { text := "q [".data },
          { text := "X] r".data }] .nil)
        [{ ftype := .bracketed, value := "[\nX]".data, start := 2, stop := 6,
           line := 1, id := "bracketed@L1@0".data,
           input := some "Bob".data }]) ∧
    (10 : Nat) ≠ (build_offsets ((allParagraphs
        (fill_docx_placeholders
          (.mk [{ text := "z [\nX] w".data }, { text := "q [".data },
            { text := "X] r".data }] .nil)
          [{ ftype := .bracketed, value := "[\nX]".data, start := 2,
             stop := 6, line := 1, id := "bracketed@L1@0".data,
             input := some "Bob".data }])).map Para.text)).getD 0 0 + 2 :=
  ⟨by decide, by decide, by decide, by decide,
    claim_C7_amended
      (.mk [{ text := "z [\nX] w".data }, { text := "q [".data },
        { text := "X] r".data }] .nil)
      { ftype := .bracketed, value := "[\nX]".data, start := 2, stop := 6,
        line := 1, id := "bracketed@L1@0".data }
      "Bob".data (by decide) rfl (by decide) (by decide) (by decide) 0 2
      (by decide)
      { ftype := .bracketed, value := "[\nX]".data, start := 10, stop := 14,
        line := 2, id := "bracketed@L2@0".data }
      (by decide) rfl rfl⟩

end DocuSign
